import Mathlib

/-!
# ShiyanlouWeb HTTP server: connection engine

A shallow embedding of `server_base.hpp` and `server_http.hpp`.

* `std::string` is a list of characters (`Str`); a character stands for one byte.
* `std::istream` over the read buffer is `IStream`: the bytes not yet extracted and
  whether the stream is still `good()`.
* The two regular expressions written in `parse_request` are values of a small
  pattern syntax (`Item`) run by a greedy backtracking matcher, the ECMAScript
  discipline of `std::regex_match`.
* The route patterns come from the caller; matching a path against one of them is the
  parameter `rx` (pattern, path) of the functions below, `none` when
  `std::regex_match` is false and the sub-matches otherwise.  Route patterns are taken
  to be well-formed regular expressions.
* `size_t` and `unsigned long long` are naturals below `2 ^ 64`, subtraction wraps.
* `float` values are exact: multiples of `2 ^ (-149)`, infinities and NaN.  What the C
  library does when a conversion underflows is the parameter `underflow`.
* Undefined behaviour (`pop_back` on an empty string) and exceptions leaving a
  completion handler are explicit outcomes.
* `std::cout` logging is left out, except in the listener where the log is the only
  visible effect of an accept error.
-/

namespace ShiyanlouWeb

/-! ## Strings and the input stream -/

/-- A `std::string`: a sequence of bytes. -/
abbrev Str := List Char

/-- A `std::istream` reading from the connection's `streambuf`. -/
structure IStream where
  /-- bytes still to be extracted -/
  buf : Str
  /-- `good()`: neither `eofbit` nor `failbit` is set -/
  good : Bool
deriving DecidableEq, Repr

/-- Split at the first line feed: the characters before it and those after it. -/
def splitLF : Str → Option (Str × Str)
  | [] => none
  | c :: cs =>
    if c = '\n' then some ([], cs)
    else match splitLF cs with
      | some (l, r) => some (c :: l, r)
      | none => none

/-- The call `std::getline(stream, line)`.  When the stream is not good the sentry
fails and `line` keeps its old value.  Otherwise `line` is erased and characters are
extracted up to and including the next line feed (which is not stored); when the
buffer ends first, everything left is stored and the stream stops being good. -/
def getline (stream : IStream) (line : Str) : IStream × Str :=
  if stream.good then
    match splitLF stream.buf with
    | some (l, rest) => ({ buf := rest, good := true }, l)
    | none => ({ buf := [], good := false }, stream.buf)
  else (stream, line)

/-- The call `line.pop_back()`: `none` is the undefined behaviour on an empty string. -/
def pop_back (line : Str) : Option Str :=
  if line = [] then none else some line.dropLast

/-! ## The regular expressions of `parse_request` -/

/-- A character class. -/
inductive CharClass where
  /-- `[^c]` -/
  | notChar (c : Char)
  /-- `.`: any character but line feed and carriage return -/
  | dot
deriving DecidableEq, Repr

/-- Membership of a character in a class. -/
def CharClass.test : CharClass → Char → Bool
  | .notChar c, x => x != c
  | .dot, x => x != '\n' && x != '\r'

/-- One element of a pattern. -/
inductive Item where
  /-- a literal character -/
  | lit (c : Char)
  /-- `c?` -/
  | opt (c : Char)
  /-- a capturing group around a greedy star, `(cls*)` -/
  | group (cls : CharClass)
deriving DecidableEq, Repr

/-- Greedy star with backtracking: take as many characters of the class as possible,
giving them back one at a time while the continuation `k` fails. -/
def matchStar (p : Char → Bool) (k : Str → Option (List Str)) : Str → Option (Str × List Str)
  | [] => (k []).map fun caps => ([], caps)
  | x :: xs =>
    if p x then
      match matchStar p k xs with
      | some (cap, caps) => some (x :: cap, caps)
      | none => (k (x :: xs)).map fun caps => ([], caps)
    else (k (x :: xs)).map fun caps => ([], caps)

/-- The call `std::regex_match(line, sub_match, e)` for a pattern `^ items $`: the
whole of the subject has to be matched; the result lists the captures
`sub_match[1]`, `sub_match[2]`, ... -/
def regex_match : List Item → Str → Option (List Str)
  | [], s => if s = [] then some [] else none
  | .lit c :: is, s =>
    match s with
    | x :: xs => if x = c then regex_match is xs else none
    | [] => none
  | .opt c :: is, s =>
    match s with
    | x :: xs =>
      if x = c then
        match regex_match is xs with
        | some caps => some caps
        | none => regex_match is s
      else regex_match is s
    | [] => regex_match is s
  | .group cls :: is, s =>
    (matchStar cls.test (regex_match is) s).map fun r => r.1 :: r.2

/-- The pattern `"^([^ ]*) ([^ ]*) HTTP/([^ ]*)$"`. -/
def requestLineRegex : List Item :=
  [.group (.notChar ' '), .lit ' ', .group (.notChar ' '), .lit ' ',
   .lit 'H', .lit 'T', .lit 'T', .lit 'P', .lit '/', .group (.notChar ' ')]

/-- The pattern `"^([^:]*): ?(.*)$"`. -/
def headerRegex : List Item :=
  [.group (.notChar ':'), .lit ':', .opt ' ', .group .dot]

/-! ## Requests -/

/-- A `std::unordered_map<std::string, V>` as an association list without repeated
keys. -/
abbrev UMap (V : Type) := List (Str × V)

/-- The call `m.find(k)`, also deciding `m.count(k) > 0`. -/
def UMap.find {V : Type} : UMap V → Str → Option V
  | [], _ => none
  | (k', v) :: m, k => if k' = k then some v else UMap.find m k

/-- The assignment `m[k] = v`. -/
def UMap.assign {V : Type} : UMap V → Str → V → UMap V
  | [], k, v => [(k, v)]
  | (k', v') :: m, k, v => if k' = k then (k, v) :: m else (k', v') :: UMap.assign m k v

/-- The struct `Request`. -/
structure Request where
  method : Str
  path : Str
  http_version : Str
  /-- the body stream, null until the body has been read -/
  content : Option IStream
  header : UMap Str
  /-- the sub-matches of the route pattern -/
  path_match : List Str
deriving DecidableEq, Repr

/-- A default-constructed `Request`. -/
def Request.empty : Request :=
  { method := [], path := [], http_version := [], content := none, header := [],
    path_match := [] }

/-- How a call of `parse_request` ends. -/
inductive ParseResult where
  /-- the function returned `request`, leaving `stream` behind -/
  | returned (request : Request) (stream : IStream)
  /-- `pop_back` was called on an empty line -/
  | undefined
  /-- the bound on the number of loop rounds was too small (never the case for
  `parse_request`, see `parse_request_terminates`) -/
  | out_of_fuel
deriving DecidableEq, Repr

/-- The `do ... while(matched==true)` loop of `parse_request`, at most `fuel` rounds. -/
def header_loop : Nat → IStream → Str → Request → ParseResult
  | 0, _, _, _ => .out_of_fuel
  | fuel + 1, stream, line, request =>
    match pop_back (getline stream line).2 with
    | none => .undefined
    | some line' =>
      match regex_match headerRegex line' with
      | some sub_match =>
        header_loop fuel (getline stream line).1 line'
          { request with
            header := request.header.assign (sub_match.getD 0 []) (sub_match.getD 1 []) }
      | none => .returned request (getline stream line).1

/-- The function `ServerBase::parse_request`. -/
def parse_request (stream : IStream) : ParseResult :=
  match pop_back (getline stream []).2 with
  | none => .undefined
  | some line =>
    match regex_match requestLineRegex line with
    | some sub_match =>
      header_loop (stream.buf.length + 2) (getline stream []).1 line
        { Request.empty with
          method := sub_match.getD 0 []
          path := sub_match.getD 1 []
          http_version := sub_match.getD 2 [] }
    | none => .returned Request.empty (getline stream []).1

/-! ## Numeric conversions of the standard library -/

/-- The exceptions of `std::stoull` and `std::stof`. -/
inductive Exn where
  | invalid_argument
  | out_of_range
deriving DecidableEq, Repr

/-- The outcome of a conversion: the value, or the exception thrown. -/
inductive Conv (α : Type) where
  | value (a : α)
  | throws (e : Exn)
deriving DecidableEq, Repr

/-- The predicate `isspace` of the "C" locale. -/
def isspace (c : Char) : Bool :=
  c = ' ' || c = '\t' || c = '\n' || c = '\x0b' || c = '\x0c' || c = '\r'

/-- The value of a decimal digit. -/
def digitVal (c : Char) : Option Nat :=
  if '0'.toNat ≤ c.toNat ∧ c.toNat ≤ '9'.toNat then some (c.toNat - '0'.toNat) else none

/-- The value of a hexadecimal digit. -/
def hexVal (c : Char) : Option Nat :=
  if '0'.toNat ≤ c.toNat ∧ c.toNat ≤ '9'.toNat then some (c.toNat - '0'.toNat)
  else if 'a'.toNat ≤ c.toNat ∧ c.toNat ≤ 'f'.toNat then some (c.toNat - 'a'.toNat + 10)
  else if 'A'.toNat ≤ c.toNat ∧ c.toNat ≤ 'F'.toNat then some (c.toNat - 'A'.toNat + 10)
  else none

/-- The longest run of digits at the head of a string, and what follows it. -/
def takeDigits (digit : Char → Option Nat) : Str → List Nat × Str
  | [] => ([], [])
  | c :: cs =>
    match digit c with
    | some d => ((takeDigits digit cs).1.cons d, (takeDigits digit cs).2)
    | none => ([], c :: cs)

/-- The number written by a list of digits in a base. -/
def digitsValue (base : Nat) (ds : List Nat) : Nat :=
  ds.foldl (fun acc d => base * acc + d) 0

/-- An optional sign: whether it is a minus, and what follows it. -/
def takeSign : Str → Bool × Str
  | '-' :: cs => (true, cs)
  | '+' :: cs => (false, cs)
  | s => (false, s)

/-- The call `std::stoull(s)` (base 10, `unsigned long long` of 64 bits): leading
white space, an optional sign, decimal digits.  No digit: `std::invalid_argument`; a
number above `ULLONG_MAX`: `std::out_of_range`; a minus sign negates modulo
`2 ^ 64`. -/
def stoull (s : Str) : Conv Nat :=
  let r := takeSign (s.dropWhile isspace)
  let ds := (takeDigits digitVal r.2).1
  if ds = [] then .throws .invalid_argument
  else if 2 ^ 64 ≤ digitsValue 10 ds then .throws .out_of_range
  else .value (if r.1 then (2 ^ 64 - digitsValue 10 ds) % 2 ^ 64 else digitsValue 10 ds)

/-- A value of type `float` (IEEE binary32).  Every finite one is a multiple of
`2 ^ (-149)`. -/
inductive FloatVal where
  /-- the number `± n * 2 ^ (-149)` -/
  | finite (neg : Bool) (n : Nat)
  | inf (neg : Bool)
  | nan
deriving DecidableEq, Repr

/-- The comparison `x > 1.05`: the `float` is widened to `double` and compared with the
`double` nearest to 1.05, which is `4728779608739021 * 2 ^ (-52)`. -/
def FloatVal.gt_1_05 : FloatVal → Bool
  | .finite neg n => !neg && decide (4728779608739021 * 2 ^ 97 < n)
  | .inf neg => !neg
  | .nan => false

/-- The number is at least 1.1 (the real number eleven tenths). -/
def FloatVal.ge_1_1 : FloatVal → Prop
  | .finite neg n => neg = false ∧ 11 * 2 ^ 149 ≤ 10 * n
  | .inf neg => neg = false
  | .nan => False

/-- The quotient `num / den` rounded to the nearest integer, ties to even. -/
def roundNearestEven (num den : Nat) : Nat :=
  if den < 2 * (num % den) ∨ (2 * (num % den) = den ∧ num / den % 2 = 1) then num / den + 1
  else num / den

/-- The position of the leading binary digit of `n`, added to `acc`: the floor of the
logarithm of `n` to base 2 (`0` for `n < 2`).  The first argument bounds the number of
halvings. -/
def log2Aux : Nat → Nat → Nat → Nat
  | 0, _, acc => acc
  | fuel + 1, n, acc => if n < 2 then acc else log2Aux fuel (n / 2) (acc + 1)

/-- What `strtof` finds, before the part that the C standard leaves to the
implementation. -/
inductive Strtof where
  /-- the number read, rounded to `float`; `errno` is untouched -/
  | value (x : FloatVal)
  /-- no number at the head of the string: no conversion is performed -/
  | no_conversion
  /-- the number rounds to `2 ^ 128` or more: `HUGE_VALF` and `ERANGE` -/
  | overflow
  /-- the number `± num / den` is not zero, lies below the least normal `float`
  `2 ^ (-126)` and is not a `float`: the result underflows -/
  | underflow (neg : Bool) (num den : Nat)
deriving DecidableEq, Repr

/-- The rational `num / den` (positive `den`) rounded to 24 significant binary digits
and to a multiple of `2 ^ (-149)`, ties to even: the result in units of
`2 ^ (-149)`. -/
def roundedUnits (num den : Nat) : Nat :=
  if num * 2 ^ 149 / den < 2 ^ 24 then roundNearestEven (num * 2 ^ 149) den
  else
    roundNearestEven (num * 2 ^ 149)
        (den * 2 ^ (log2Aux (num * 2 ^ 149 / den) (num * 2 ^ 149 / den) 0 - 23))
      * 2 ^ (log2Aux (num * 2 ^ 149 / den) (num * 2 ^ 149 / den) 0 - 23)

/-- The rational `num / den` (positive `den`) converted to `float` under
round-to-nearest.  A number below `2 ^ (-126)` that is not a multiple of
`2 ^ (-149)` underflows; a number that rounds to `2 ^ 128` or more overflows. -/
def toFloat (neg : Bool) (num den : Nat) : Strtof :=
  if num * 2 ^ 149 / den < 2 ^ 23 ∧ num * 2 ^ 149 % den ≠ 0 then .underflow neg num den
  else if 2 ^ 128 * 2 ^ 149 ≤ roundedUnits num den then .overflow
  else .value (.finite neg (roundedUnits num den))

/-- Whether `s` starts with the letters of `w` (given in lower case), in any case. -/
def startsWithCI : Str → Str → Bool
  | [], _ => true
  | _ :: _, [] => false
  | w :: ws, c :: cs => c.toLower = w && startsWithCI ws cs

/-- An exponent part: the marker (`e` or `p`, in lower case), an optional sign and at
least one decimal digit; `0` when there is none. -/
def parseExp (marker : Char) : Str → Int
  | [] => 0
  | c :: cs =>
    if c.toLower = marker then
      let r := takeSign cs
      let ds := (takeDigits digitVal r.2).1
      if ds = [] then 0
      else if r.1 then - (digitsValue 10 ds : Int) else (digitsValue 10 ds : Int)
    else 0

/-- The fraction `m * base ^ e` as numerator and denominator. -/
def scaled (m base : Nat) (e : Int) : Nat × Nat :=
  if 0 ≤ e then (m * base ^ e.toNat, 1) else (m, base ^ (-e).toNat)

/-- A significand: digits, optionally a point and more digits.  The digits of both
parts, the number of those after the point, and what follows. -/
def takeSignificand (digit : Char → Option Nat) (s : Str) : List Nat × Nat × Str :=
  let i := takeDigits digit s
  match i.2 with
  | '.' :: r => (i.1 ++ (takeDigits digit r).1, (takeDigits digit r).1.length, (takeDigits digit r).2)
  | _ => (i.1, 0, i.2)

/-- A hexadecimal floating constant `0x h.hhh p±d`, as an exact fraction. -/
def parseHexFloat : Str → Option (Nat × Nat)
  | '0' :: x :: s =>
    if x.toLower = 'x' then
      let g := takeSignificand hexVal s
      if g.1 = [] then none
      else some (scaled (digitsValue 16 g.1) 2 (parseExp 'p' g.2.2 - 4 * (g.2.1 : Int)))
    else none
  | _ => none

/-- A decimal floating constant `d.ddd e±d`, as an exact fraction. -/
def parseDecFloat (s : Str) : Option (Nat × Nat) :=
  let g := takeSignificand digitVal s
  if g.1 = [] then none
  else some (scaled (digitsValue 10 g.1) 10 (parseExp 'e' g.2.2 - (g.2.1 : Int)))

/-- The call `strtof(s, &end)` in the "C" locale: leading white space, an optional
sign, then `inf`, `nan`, a hexadecimal or a decimal floating constant; what follows
the number is ignored. -/
def strtof (s : Str) : Strtof :=
  let r := takeSign (s.dropWhile isspace)
  if startsWithCI ['i', 'n', 'f'] r.2 then .value (.inf r.1)
  else if startsWithCI ['n', 'a', 'n'] r.2 then .value .nan
  else
    match parseHexFloat r.2 with
    | some q => toFloat r.1 q.1 q.2
    | none =>
      match parseDecFloat r.2 with
      | some q => toFloat r.1 q.1 q.2
      | none => .no_conversion

/-- The call `std::stof(s)`: `strtof` on `s.c_str()`, with `std::invalid_argument`
when no conversion is performed and `std::out_of_range` when `errno` is `ERANGE`.
When the result underflows, the C standard has the library return a number of
magnitude at most `2 ^ (-126)` and leaves to the implementation whether `errno`
becomes `ERANGE`: that choice is the parameter `underflow` (sign, numerator,
denominator), `none` for `ERANGE` and `some n` for the result `± n * 2 ^ (-149)`
without `ERANGE`. -/
def stof (underflow : Bool → Nat → Nat → Option Nat) (s : Str) : Conv FloatVal :=
  match strtof s with
  | .value x => .value x
  | .no_conversion => .throws .invalid_argument
  | .overflow => .throws .out_of_range
  | .underflow neg num den =>
    match underflow neg num den with
    | none => .throws .out_of_range
    | some n => .value (.finite neg (min n (2 ^ 23)))

/-- A C library that sets `ERANGE` on every underflow. -/
def underflowReported : Bool → Nat → Nat → Option Nat :=
  fun _ _ _ => none

/-! ## The routing table -/

/-- A handler, `std::function<void(std::ostream&, Request&)>`: the bytes it writes to
the response stream and the request it leaves behind. -/
abbrev Handler := Request → Str × Request

/-- An entry of `resource_type`: a path pattern and its handlers by method. -/
structure Route where
  pattern : Str
  handlers : UMap Handler

/-- The order of `std::less<std::string>`: lexicographic on the bytes. -/
def strLt : Str → Str → Bool
  | _, [] => false
  | [], _ :: _ => true
  | a :: as, b :: bs => a.toNat < b.toNat || (a = b && strLt as bs)

/-- The type `resource_type`, a `std::map` from patterns to handlers by method: its
entries in iteration order, that is in ascending order of the keys. -/
abbrev resource_type := List Route

/-- The statement `resource[pattern][method] = handler` on a `std::map`: the entry of
`pattern` is created at its place in key order when there is none. -/
def resource_type.register : resource_type → Str → Str → Handler → resource_type
  | [], pattern, method, handler => [{ pattern := pattern, handlers := [(method, handler)] }]
  | r :: rs, pattern, method, handler =>
    if r.pattern = pattern then
      { r with handlers := r.handlers.assign method handler } :: rs
    else if strLt pattern r.pattern then
      { pattern := pattern, handlers := [(method, handler)] } :: r :: rs
    else r :: resource_type.register rs pattern method handler

/-- A registration made by the caller before `start()`: pattern, method, handler. -/
abbrev Registration := Str × Str × Handler

/-- The registrations of a list, made in order on an empty map. -/
def registerAll (regs : List Registration) : resource_type :=
  regs.foldl (fun m r => m.register r.1 r.2.1 r.2.2) []

/-- The fields of `ServerBase` that routing uses. -/
structure ServerBase where
  resource : resource_type
  default_resource : resource_type
  all_resources : List Route

/-- The two loops at the head of `ServerBase::start`: every entry of `resource`, then
every entry of `default_resource`, is pushed to the back of `all_resources`. -/
def ServerBase.start (s : ServerBase) : ServerBase :=
  { s with all_resources := (s.all_resources ++ s.resource) ++ s.default_resource }

/-- A server with its registrations made, before `start()`. -/
def ServerBase.configured (regs defaults : List Registration) : ServerBase :=
  { resource := registerAll regs, default_resource := registerAll defaults,
    all_resources := [] }

/-! ## The connection cycle -/

/-- What a step of the connection cycle does to the outside. -/
inductive Effect where
  /-- `async_read_until(socket, buffer, "\r\n\r\n", ...)` -/
  | async_read_until
  /-- `async_read(socket, buffer, transfer_exactly(n), ...)` -/
  | async_read (n : Nat)
  /-- the call of the handler of entry `index` of `all_resources` for `method` -/
  | invoke (index : Nat) (method : Str)
  /-- `async_write(socket, buffer, ...)` of the bytes the handler produced -/
  | async_write (bytes : Str)
deriving DecidableEq, Repr

/-- Where a connection stands between two completion handlers. -/
inductive ConnState where
  /-- `async_read_until` is pending -/
  | AwaitingHeaders
  /-- `async_read` of the body is pending; the lambda holds the request and the
  buffer -/
  | AwaitingBody (request : Request) (stream : IStream)
  /-- `async_write` is pending; the lambda holds the request -/
  | Responding (request : Request)
  /-- nothing is pending: the last owner of the socket is gone -/
  | Closed
  /-- an exception left the completion handler -/
  | Thrown (e : Exn)
  /-- undefined behaviour was reached -/
  | Undefined
deriving DecidableEq, Repr

/-- An unsigned 64-bit subtraction `a - b`. -/
def sub64 (a b : Nat) : Nat :=
  (a % 2 ^ 64 + (2 ^ 64 - b % 2 ^ 64)) % 2 ^ 64

/-- The loop of `ServerBase::respond` over the entries of `all_resources` from
position `index` on.  The first entry whose pattern matches the path and that has a
handler for the method gets its handler called and the output written; when the loop
ends without one, nothing is done. -/
def respond_from (rx : Str → Str → Option (List Str)) :
    Nat → List Route → Request → ConnState × List Effect
  | _, [], _ => (.Closed, [])
  | index, res :: rest, request =>
    match rx res.pattern request.path with
    | some sm_res =>
      match res.handlers.find request.method with
      | some handler =>
        (.Responding (handler { request with path_match := sm_res }).2,
          [.invoke index request.method,
           .async_write (handler { request with path_match := sm_res }).1])
      | none => respond_from rx (index + 1) rest request
    | none => respond_from rx (index + 1) rest request

/-- The function `ServerBase::respond`. -/
def respond (rx : Str → Str → Option (List Str)) (all_resources : List Route)
    (request : Request) : ConnState × List Effect :=
  respond_from rx 0 all_resources request

/-- The function `ServerBase::process_request_and_respond`: it only starts the read of
the header block. -/
def process_request_and_respond : ConnState × List Effect :=
  (.AwaitingHeaders, [.async_read_until])

/-- The completion handler of `async_read_until`: `buffer` is the content of the read
buffer and `bytes_transferred` the number of bytes up to and including the
delimiter.  (The case `out_of_fuel` never arises, by `parse_request_terminates`.) -/
def on_read_until (rx : Str → Str → Option (List Str)) (all_resources : List Route)
    (ec : Bool) (buffer : Str) (bytes_transferred : Nat) : ConnState × List Effect :=
  if ec then (.Closed, [])
  else
    match parse_request { buf := buffer, good := true } with
    | .undefined => (.Undefined, [])
    | .out_of_fuel => (.Undefined, [])
    | .returned request stream =>
      match request.header.find "Content-Length".toList with
      | some v =>
        match stoull v with
        | .value n =>
          (.AwaitingBody request stream,
            [.async_read (sub64 n (sub64 buffer.length bytes_transferred))])
        | .throws e => (.Thrown e, [])
      | none => respond rx all_resources request

/-- The completion handler of the body's `async_read`: `received` are the bytes the
read appended to the buffer. -/
def on_read (rx : Str → Str → Option (List Str)) (all_resources : List Route)
    (request : Request) (stream : IStream) (ec : Bool) (received : Str) :
    ConnState × List Effect :=
  if ec then (.Closed, [])
  else
    respond rx all_resources
      { request with content := some { buf := stream.buf ++ received, good := true } }

/-- The completion handler of `async_write`:
`if(!ec && stof(request->http_version)>1.05) process_request_and_respond(socket);` -/
def on_write (underflow : Bool → Nat → Nat → Option Nat) (request : Request) (ec : Bool) :
    ConnState × List Effect :=
  if ec then (.Closed, [])
  else
    match stof underflow request.http_version with
    | .value x => if x.gt_1_05 then process_request_and_respond else (.Closed, [])
    | .throws e => (.Thrown e, [])

/-- The completion of an asynchronous operation on the socket. -/
inductive Completion where
  | read_until (ec : Bool) (buffer : Str) (bytes_transferred : Nat)
  | read (ec : Bool) (received : Str)
  | write (ec : Bool)
deriving DecidableEq, Repr

/-- One step of the connection cycle: the pending operation completes and its handler
runs.  A completion that does not belong to the pending operation cannot happen and
changes nothing. -/
def step (underflow : Bool → Nat → Nat → Option Nat) (rx : Str → Str → Option (List Str))
    (all_resources : List Route) : ConnState → Completion → ConnState × List Effect
  | .AwaitingHeaders, .read_until ec buffer n => on_read_until rx all_resources ec buffer n
  | .AwaitingBody request stream, .read ec received =>
    on_read rx all_resources request stream ec received
  | .Responding request, .write ec => on_write underflow request ec
  | s, _ => (s, [])

/-! ## The listener -/

/-- The listener of `Server<HTTP>`. -/
structure Listener where
  /-- the number of `async_accept` operations pending on the acceptor -/
  pending : Nat
  /-- the number of sockets handed to `process_request_and_respond` -/
  connections : Nat
  /-- the lines written to `cout` by the accept handler -/
  log : List String
deriving DecidableEq, Repr

/-- The function `Server<HTTP>::accept`: a socket is made and `async_accept` issued. -/
def Listener.accept (l : Listener) : Listener :=
  { l with pending := l.pending + 1 }

/-- The completion handler of `async_accept`: on an error it logs and returns;
otherwise the connection cycle is started on the socket and `accept()` called
again. -/
def Listener.on_accept (l : Listener) (ec : Bool) : Listener :=
  if ec then { l with pending := l.pending - 1, log := l.log ++ ["ec!=0 ,error"] }
  else Listener.accept { l with pending := l.pending - 1, connections := l.connections + 1 }

/-- The step relation of the listener: a pending accept completes, with or without an
error, and its handler runs. -/
def Listener.Step (l l' : Listener) : Prop :=
  0 < l.pending ∧ ∃ ec : Bool, l' = l.on_accept ec

/-- The listener as `start()` leaves it: `accept()` has been called once. -/
def Listener.started : Listener :=
  Listener.accept { pending := 0, connections := 0, log := [] }

/-! ## Inputs and notions used to state the properties -/

/-- The text `m p HTTP/v` of a request line, without its line end. -/
def requestLineText (m p v : Str) : Str :=
  m ++ ' ' :: (p ++ ' ' :: 'H' :: 'T' :: 'T' :: 'P' :: '/' :: v)

/-- The text `K: V` of a header line, without its line end. -/
def headerLineText (k v : Str) : Str :=
  k ++ ':' :: ' ' :: v

/-- A block of header lines, each ended by CR LF. -/
def headerBlock : List (Str × Str) → Str
  | [] => []
  | kv :: hs => headerLineText kv.1 kv.2 ++ '\r' :: '\n' :: headerBlock hs

/-- The value of the last line of a header block that carries the key `k`. -/
def lastBinding : List (Str × Str) → Str → Option Str
  | [], _ => none
  | kv :: hs, k =>
    match lastBinding hs k with
    | some v => some v
    | none => if kv.1 = k then some kv.2 else none

/-- Whether `t` occurs at the head of `s`. -/
def startsWith : Str → Str → Bool
  | _, [] => true
  | [], _ :: _ => false
  | c :: cs, d :: ds => c = d && startsWith cs ds

/-- Whether `t` occurs somewhere in `s`. -/
def hasInfix : Str → Str → Bool
  | [], t => t = []
  | c :: cs, t => startsWith (c :: cs) t || hasInfix cs t

/-- The delimiter of `async_read_until`. -/
def terminator : Str := ['\r', '\n', '\r', '\n']

/-- The result of `std::regex_match` for a route pattern that is a text without
special characters, followed or not by `.*`: the path has to be the text, followed in
the second case by characters other than line feed and carriage return.  Such a
pattern has no sub-match. -/
def literalStarRx (pattern path : Str) : Option (List Str) :=
  match pattern.reverse with
  | '*' :: '.' :: t =>
    if startsWith path t.reverse && (path.drop t.length).all CharClass.dot.test then some []
    else none
  | _ => if path = pattern then some [] else none

/-- An entry of the routing table is eligible for a request: its pattern matches the
path and it has a handler for the method. -/
def Route.eligible (rx : Str → Str → Option (List Str)) (request : Request) (r : Route) : Bool :=
  (rx r.pattern request.path).isSome && (r.handlers.find request.method).isSome

/-- The mapping after the lines of a block have been assigned in order. -/
def assignAll (m : UMap Str) (hs : List (Str × Str)) : UMap Str :=
  hs.foldl (fun m kv => m.assign kv.1 kv.2) m

/-- The number of rounds after which the header loop has certainly ended. -/
def roundsBound (stream : IStream) (line : Str) : Nat :=
  if stream.good then stream.buf.length + 2 else line.length + 1

/-- The keys of a map in iteration order. -/
def patterns (m : resource_type) : List Str :=
  m.map fun r => r.pattern

/-- The list is in strictly ascending order of `std::less<std::string>`. -/
def Ascending (ks : List Str) : Prop :=
  ks.Pairwise fun a b => strLt a b = true

/-- The keys of a `std::map` after the key `p` has been looked up with `operator[]`. -/
def insertKey (p : Str) : List Str → List Str
  | [] => [p]
  | k :: ks =>
    if k = p then k :: ks
    else if strLt p k then p :: k :: ks
    else k :: insertKey p ks

/-- Whether a character is a decimal digit. -/
def isDigitChar (c : Char) : Bool :=
  (digitVal c).isSome

/-- The number written by a string of decimal digits. -/
def decimalValue (ds : Str) : Nat :=
  ds.foldl (fun acc c => 10 * acc + (c.toNat - '0'.toNat)) 0

/-- The head of a text read as a number: `ws` is the leading white space, `sg` the
optional sign and `body` what follows them.  The white space is all of it and a sign
is taken when there is one, so without a sign `body` starts neither with white space
nor with a sign. -/
def NumberPrefix (ws sg body : Str) : Bool :=
  ws.all isspace && (decide (sg = []) || decide (sg = ['+']) || decide (sg = ['-']))
    && match body with
      | [] => true
      | c :: _ => !decide (sg = []) || (!isspace c && !decide (c = '+') && !decide (c = '-'))

/-- Whether a text starts with something `strtof` reads as a number: a digit, a point
followed by a digit, `inf` or `nan` in any case. -/
def startsNumber : Str → Bool
  | [] => false
  | c :: cs =>
    isDigitChar c
      || (decide (c = '.') && match cs with
          | d :: _ => isDigitChar d
          | [] => false)
      || startsWithCI ['i', 'n', 'f'] (c :: cs) || startsWithCI ['n', 'a', 'n'] (c :: cs)

/-- A handler that writes `A`. -/
def handlerA : Handler := fun r => (['A'], r)

/-- A handler that writes `B`. -/
def handlerB : Handler := fun r => (['B'], r)

/-- The request `GET /xy` of version 1.1. -/
def getXY : Request :=
  { Request.empty with
    method := "GET".toList, path := "/xy".toList, http_version := "1.1".toList }

/-- The request `GET / HTTP/x`. -/
def getVersionX : Request :=
  { Request.empty with method := "GET".toList, path := "/".toList, http_version := ['x'] }

/-- The request `POST / HTTP/1.1` with the header `Content-Length: 5`. -/
def postLength5 : Request :=
  { Request.empty with
    method := "POST".toList, path := "/".toList, http_version := "1.1".toList,
    header := [("Content-Length".toList, "5".toList)] }

/-- The patterns `/x.*` and `/.*`, registered in this order for GET. -/
def registrationsXY : List Registration :=
  [("/x.*".toList, "GET".toList, handlerA), ("/.*".toList, "GET".toList, handlerB)]

/-! ## Lemmas on lines and patterns -/

theorem splitLF_append (l r : Str) (h : '\n' ∉ l) : splitLF (l ++ '\n' :: r) = some (l, r) := by
  induction l with
  | nil => simp [splitLF]
  | cons c cs ih =>
    have hc : c ≠ '\n' := fun e => h (by simp [e])
    have hcs : '\n' ∉ cs := fun e => h (List.mem_cons_of_mem _ e)
    simp [splitLF, hc, ih hcs]

theorem getline_crlf (l r line : Str) (h : '\n' ∉ l) :
    getline { buf := l ++ '\r' :: '\n' :: r, good := true } line
      = ({ buf := r, good := true }, l ++ ['\r']) := by
  have e : l ++ '\r' :: '\n' :: r = (l ++ ['\r']) ++ '\n' :: r := by simp
  have h2 : '\n' ∉ l ++ ['\r'] := by
    intro hm
    rcases List.mem_append.1 hm with hm | hm
    · exact h hm
    · simp at hm
  simp only [getline, e, splitLF_append _ _ h2, if_true]

theorem pop_back_concat (l : Str) (c : Char) : pop_back (l ++ [c]) = some l := by
  simp [pop_back]

theorem matchStar_all (p : Char → Bool) (k : Str → Option (List Str)) (a : Str)
    (caps : List Str) (ha : ∀ c ∈ a, p c = true) (hk : k [] = some caps) :
    matchStar p k a = some (a, caps) := by
  induction a with
  | nil => simp [matchStar, hk]
  | cons c cs ih =>
    have h1 := ih (fun d hd => ha d (List.mem_cons_of_mem _ hd))
    simp [matchStar, ha c (List.mem_cons_self _ _), h1]

theorem matchStar_stop (p : Char → Bool) (k : Str → Option (List Str)) (a : Str) (x : Char)
    (rest : Str) (caps : List Str) (ha : ∀ c ∈ a, p c = true) (hx : p x = false)
    (hk : k (x :: rest) = some caps) :
    matchStar p k (a ++ x :: rest) = some (a, caps) := by
  induction a with
  | nil => simp [matchStar, hx, hk]
  | cons c cs ih =>
    have h1 := ih (fun d hd => ha d (List.mem_cons_of_mem _ hd))
    simp [matchStar, ha c (List.mem_cons_self _ _), h1]

theorem regex_match_group (cls : CharClass) (is : List Item) (s : Str) :
    regex_match (.group cls :: is) s
      = (matchStar cls.test (regex_match is) s).map fun r => r.1 :: r.2 := by
  rw [regex_match]

theorem regex_match_lit_cons (c : Char) (is : List Item) (s : Str) :
    regex_match (.lit c :: is) (c :: s) = regex_match is s := by
  rw [regex_match]; simp

theorem regex_match_nil : regex_match [] [] = some [] := by
  rw [regex_match]; simp

theorem regex_match_group_stop (cls : CharClass) (is : List Item) (a : Str) (x : Char)
    (rest : Str) (caps : List Str) (ha : ∀ c ∈ a, cls.test c = true)
    (hx : cls.test x = false) (hk : regex_match is (x :: rest) = some caps) :
    regex_match (.group cls :: is) (a ++ x :: rest) = some (a :: caps) := by
  rw [regex_match_group, matchStar_stop cls.test (regex_match is) a x rest caps ha hx hk]
  rfl

theorem regex_match_group_end (cls : CharClass) (a : Str) (ha : ∀ c ∈ a, cls.test c = true) :
    regex_match [.group cls] a = some [a] := by
  rw [regex_match_group, matchStar_all cls.test (regex_match []) a [] ha regex_match_nil]
  rfl

theorem notChar_test_of_not_mem (c : Char) (a : Str) (h : c ∉ a) :
    ∀ d ∈ a, (CharClass.notChar c).test d = true := by
  intro d hd
  have : d ≠ c := fun e => h (e ▸ hd)
  simp [CharClass.test, this]

theorem dot_test_of_not_mem (a : Str) (h1 : '\n' ∉ a) (h2 : '\r' ∉ a) :
    ∀ d ∈ a, CharClass.dot.test d = true := by
  intro d hd
  have e1 : d ≠ '\n' := fun e => h1 (e ▸ hd)
  have e2 : d ≠ '\r' := fun e => h2 (e ▸ hd)
  simp [CharClass.test, e1, e2]

/-- The request-line pattern splits the text of a request line into `m`, `p`, `v`. -/
theorem regex_match_requestLine (m p v : Str) (hm : ' ' ∉ m) (hp : ' ' ∉ p) (hv : ' ' ∉ v) :
    regex_match requestLineRegex (requestLineText m p v) = some [m, p, v] := by
  unfold requestLineRegex requestLineText
  apply regex_match_group_stop _ _ _ _ _ _ (notChar_test_of_not_mem _ _ hm) (by decide)
  rw [regex_match_lit_cons]
  apply regex_match_group_stop _ _ _ _ _ _ (notChar_test_of_not_mem _ _ hp) (by decide)
  rw [regex_match_lit_cons, regex_match_lit_cons, regex_match_lit_cons, regex_match_lit_cons,
    regex_match_lit_cons, regex_match_lit_cons]
  exact regex_match_group_end _ _ (notChar_test_of_not_mem _ _ hv)

theorem regex_match_opt_cons (c : Char) (is : List Item) (s : Str) (caps : List Str)
    (h : regex_match is s = some caps) :
    regex_match (.opt c :: is) (c :: s) = some caps := by
  rw [regex_match]; simp [h]

/-- The header pattern splits the text of a header line into `k` and `v`. -/
theorem regex_match_headerLine (k v : Str) (hk : ':' ∉ k) (h1 : '\n' ∉ v) (h2 : '\r' ∉ v) :
    regex_match headerRegex (headerLineText k v) = some [k, v] := by
  unfold headerRegex headerLineText
  apply regex_match_group_stop _ _ _ _ _ _ (notChar_test_of_not_mem _ _ hk) (by decide)
  rw [regex_match_lit_cons]
  exact regex_match_opt_cons _ _ _ _ (regex_match_group_end _ _ (dot_test_of_not_mem _ h1 h2))

/-- The empty line is not a header line. -/
theorem regex_match_header_empty : regex_match headerRegex [] = none := by decide

/-! ## Lemmas on the header mapping -/

theorem UMap.find_assign {V : Type} (m : UMap V) (k k' : Str) (v : V) :
    (m.assign k v).find k' = if k = k' then some v else m.find k' := by
  induction m with
  | nil => simp [UMap.assign, UMap.find]
  | cons e m ih =>
    obtain ⟨a, b⟩ := e
    by_cases h : a = k
    · subst h
      by_cases h2 : a = k' <;> simp [UMap.assign, UMap.find, h2]
    · by_cases h2 : a = k'
      · subst h2
        have h3 : ¬ k = a := fun e => h e.symm
        simp [UMap.assign, UMap.find, h, h3]
      · simp [UMap.assign, UMap.find, h, h2, ih]

theorem find_assignAll (hs : List (Str × Str)) (m : UMap Str) (k : Str) :
    (assignAll m hs).find k =
      match lastBinding hs k with
      | some v => some v
      | none => m.find k := by
  induction hs generalizing m with
  | nil => simp [assignAll, lastBinding]
  | cons kv hs ih =>
    have e : assignAll m (kv :: hs) = assignAll (m.assign kv.1 kv.2) hs := rfl
    rw [e, ih, lastBinding]
    cases h : lastBinding hs k with
    | some v => rfl
    | none =>
      simp only [UMap.find_assign]
      by_cases h2 : kv.1 = k <;> simp [h2]

/-! ## Lemmas on the header loop -/

theorem length_le_headerBlock (hs : List (Str × Str)) : hs.length ≤ (headerBlock hs).length := by
  induction hs with
  | nil => simp
  | cons kv hs ih =>
    simp only [headerBlock, headerLineText, List.length_append, List.length_cons]
    omega

theorem header_loop_block (rest : Str) (hs : List (Str × Str))
    (h : ∀ kv ∈ hs, ':' ∉ kv.1 ∧ '\n' ∉ kv.1 ∧ '\n' ∉ kv.2 ∧ '\r' ∉ kv.2) :
    ∀ (fuel : Nat) (line : Str) (request : Request), hs.length < fuel →
      header_loop fuel { buf := headerBlock hs ++ '\r' :: '\n' :: rest, good := true } line request
        = .returned { request with header := assignAll request.header hs }
            { buf := rest, good := true } := by
  induction hs with
  | nil =>
    intro fuel line request hf
    obtain ⟨f, rfl⟩ : ∃ f, fuel = f + 1 := ⟨fuel - 1, by simp at hf; omega⟩
    have g := getline_crlf [] rest line (by simp)
    simp only [List.nil_append] at g
    simp only [headerBlock, List.nil_append, header_loop, g]
    have e : pop_back ['\r'] = some [] := by decide
    simp only [e, regex_match_header_empty]
    rfl
  | cons kv hs ih =>
    intro fuel line request hf
    obtain ⟨f, rfl⟩ : ∃ f, fuel = f + 1 := ⟨fuel - 1, by simp at hf; omega⟩
    obtain ⟨hk, hkn, hvn, hvr⟩ := h kv (List.mem_cons_self _ _)
    have hl : '\n' ∉ headerLineText kv.1 kv.2 := by
      unfold headerLineText
      intro hm
      rcases List.mem_append.1 hm with hm | hm
      · exact hkn hm
      · simp only [List.mem_cons] at hm
        rcases hm with hm | hm | hm
        · exact absurd hm (by decide)
        · exact absurd hm (by decide)
        · exact hvn hm
    have g := getline_crlf (headerLineText kv.1 kv.2) (headerBlock hs ++ '\r' :: '\n' :: rest)
      line hl
    have e : headerBlock (kv :: hs) ++ '\r' :: '\n' :: rest
        = headerLineText kv.1 kv.2 ++ '\r' :: '\n' :: (headerBlock hs ++ '\r' :: '\n' :: rest) := by
      simp [headerBlock]
    rw [e, header_loop]
    simp only [g, pop_back_concat, regex_match_headerLine kv.1 kv.2 hk hvn hvr]
    rw [ih (fun x hx => h x (List.mem_cons_of_mem _ hx)) f _ _
      (by simp at hf; omega)]
    rfl

/-! ## The model of the loop is total -/

theorem splitLF_length (s l r : Str) (h : splitLF s = some (l, r)) :
    l.length + r.length + 1 = s.length := by
  induction s generalizing l with
  | nil => simp [splitLF] at h
  | cons c cs ih =>
    by_cases hc : c = '\n'
    · simp [splitLF, hc] at h
      obtain ⟨rfl, rfl⟩ := h
      simp
    · simp only [splitLF, hc, if_false] at h
      cases h2 : splitLF cs with
      | none => simp [h2] at h
      | some q =>
        obtain ⟨l2, r2⟩ := q
        simp [h2] at h
        obtain ⟨rfl, rfl⟩ := h
        have := ih l2 h2
        simp only [List.length_cons]
        omega

theorem pop_back_length (l l2 : Str) (h : pop_back l = some l2) : l2.length + 1 = l.length := by
  unfold pop_back at h
  by_cases hl : l = []
  · simp [hl] at h
  · simp [hl] at h
    subst h
    have : 0 < l.length := List.length_pos.2 hl
    simp only [List.length_dropLast]
    omega

theorem header_loop_terminates :
    ∀ (fuel : Nat) (stream : IStream) (line : Str) (request : Request),
      roundsBound stream line ≤ fuel → header_loop fuel stream line request ≠ .out_of_fuel := by
  intro fuel
  induction fuel with
  | zero =>
    intro stream line request hb
    unfold roundsBound at hb
    split at hb <;> omega
  | succ f ih =>
    intro stream line request hb
    rw [header_loop]
    cases hp : pop_back (getline stream line).2 with
    | none => simp
    | some l2 =>
      cases hr : regex_match headerRegex l2 with
      | none => simp [hr]
      | some sm =>
        simp only [hr]
        apply ih
        have hlen := pop_back_length _ _ hp
        unfold roundsBound at hb ⊢
        unfold getline at hlen ⊢
        by_cases hg : stream.good = true
        · simp only [hg, if_true] at hb hlen ⊢
          cases hs : splitLF stream.buf with
          | none =>
            simp only [hs] at hlen ⊢
            simp
            omega
          | some q =>
            obtain ⟨a, b⟩ := q
            have := splitLF_length _ _ _ hs
            simp only [hs] at hlen ⊢
            simp
            omega
        · simp only [hg] at hb hlen ⊢
          simp at hb hlen ⊢
          simp [hg]
          omega

/-- The function `parse_request` always ends: the bound on the rounds of its loop is
never reached. -/
theorem parse_request_terminates (stream : IStream) : parse_request stream ≠ .out_of_fuel := by
  unfold parse_request
  cases hp : pop_back (getline stream []).2 with
  | none => simp
  | some l2 =>
    cases hr : regex_match requestLineRegex l2 with
    | none => simp [hr]
    | some sm =>
      simp only [hr]
      apply header_loop_terminates
      have hlen := pop_back_length _ _ hp
      unfold roundsBound
      unfold getline at hlen ⊢
      by_cases hg : stream.good = true
      · simp only [hg, if_true] at hlen ⊢
        cases hs : splitLF stream.buf with
        | none =>
          simp only [hs] at hlen ⊢
          simp
          omega
        | some q =>
          obtain ⟨a, b⟩ := q
          have := splitLF_length _ _ _ hs
          simp only [hs] at hlen ⊢
          simp
          omega
      · simp [hg] at hlen

/-! ## The request parser -/

theorem not_mem_requestLineText (m p v : Str) (hm : '\n' ∉ m) (hp : '\n' ∉ p) (hv : '\n' ∉ v) :
    '\n' ∉ requestLineText m p v := by
  unfold requestLineText
  intro h
  rcases List.mem_append.1 h with h | h
  · exact hm h
  · rcases List.mem_cons.1 h with h | h
    · exact absurd h (by decide)
    · rcases List.mem_append.1 h with h | h
      · exact hp h
      · simp only [List.mem_cons] at h
        rcases h with h | h | h | h | h | h | h
        · exact absurd h (by decide)
        · exact absurd h (by decide)
        · exact absurd h (by decide)
        · exact absurd h (by decide)
        · exact absurd h (by decide)
        · exact absurd h (by decide)
        · exact hv h

/-- What `parse_request` returns on a request line, a block of header lines and the
empty line: the three parts of the request line, the header mapping of the block, and
the stream positioned after the empty line. -/
theorem parse_request_wellformed (m p v : Str) (hs : List (Str × Str)) (rest : Str)
    (hm : ' ' ∉ m ∧ '\n' ∉ m) (hp : ' ' ∉ p ∧ '\n' ∉ p) (hv : ' ' ∉ v ∧ '\n' ∉ v)
    (hh : ∀ kv ∈ hs, ':' ∉ kv.1 ∧ '\n' ∉ kv.1 ∧ '\n' ∉ kv.2 ∧ '\r' ∉ kv.2) :
    parse_request
        { buf := requestLineText m p v ++ '\r' :: '\n' :: (headerBlock hs ++ '\r' :: '\n' :: rest),
          good := true }
      = .returned
          { Request.empty with
            method := m, path := p, http_version := v, header := assignAll [] hs }
          { buf := rest, good := true } := by
  unfold parse_request
  have g := getline_crlf (requestLineText m p v) (headerBlock hs ++ '\r' :: '\n' :: rest) []
    (not_mem_requestLineText m p v hm.2 hp.2 hv.2)
  simp only [g, pop_back_concat, regex_match_requestLine m p v hm.1 hp.1 hv.1]
  rw [header_loop_block rest hs hh _ _ _
    (by have := length_le_headerBlock hs; simp only [List.length_append, List.length_cons]; omega)]
  rfl

/-- C2: for a stream made of a request line `m p HTTP/v`, header lines `K: V` (each
line ended by CR LF, `m`, `p`, `v` without space or LF, `K` without colon or LF, `V`
without CR or LF) and the empty line, `parse_request` returns; the request has method
`m`, path `p`, version `v`; its header mapping holds for every key the value of the
last line carrying that key and nothing for a key that no line carries; and the bytes
left in the stream are exactly those after the empty line, the first line that is not
of the form key: value. -/
theorem parse_request_header_block (m p v : Str) (hs : List (Str × Str)) (rest : Str)
    (hm : ' ' ∉ m ∧ '\n' ∉ m) (hp : ' ' ∉ p ∧ '\n' ∉ p) (hv : ' ' ∉ v ∧ '\n' ∉ v)
    (hh : ∀ kv ∈ hs, ':' ∉ kv.1 ∧ '\n' ∉ kv.1 ∧ '\n' ∉ kv.2 ∧ '\r' ∉ kv.2) :
    ∃ request : Request,
      parse_request
          { buf := requestLineText m p v ++ '\r' :: '\n' ::
              (headerBlock hs ++ '\r' :: '\n' :: rest),
            good := true }
        = .returned request { buf := rest, good := true }
      ∧ request.method = m ∧ request.path = p ∧ request.http_version = v
      ∧ (∀ k : Str, request.header.find k = lastBinding hs k)
      ∧ regex_match headerRegex [] = none := by
  refine ⟨_, parse_request_wellformed m p v hs rest hm hp hv hh, rfl, rfl, rfl, ?_,
    regex_match_header_empty⟩
  intro k
  show (assignAll [] hs).find k = lastBinding hs k
  rw [find_assignAll]
  cases lastBinding hs k <;> rfl

/-- C2, instance: the stream
`GET /a HTTP/1.1`, `Host: x`, `A: 1`, `A: 2`, the empty line and the body `body`. -/
theorem parse_request_header_block_witness :
    ∃ request : Request,
      parse_request
          { buf := requestLineText "GET".toList "/a".toList "1.1".toList ++ '\r' :: '\n' ::
              (headerBlock [("Host".toList, "x".toList), ("A".toList, "1".toList),
                  ("A".toList, "2".toList)] ++ '\r' :: '\n' :: "body".toList),
            good := true }
        = .returned request { buf := "body".toList, good := true }
      ∧ request.method = "GET".toList ∧ request.path = "/a".toList
      ∧ request.http_version = "1.1".toList
      ∧ (∀ k : Str, request.header.find k
          = lastBinding [("Host".toList, "x".toList), ("A".toList, "1".toList),
              ("A".toList, "2".toList)] k)
      ∧ regex_match headerRegex [] = none :=
  parse_request_header_block "GET".toList "/a".toList "1.1".toList
    [("Host".toList, "x".toList), ("A".toList, "1".toList), ("A".toList, "2".toList)]
    "body".toList (by decide) (by decide) (by decide) (by decide)

/-- C1: on the buffer `GET / HTTP/1.1\r\n\n\r\n\r\n`, which starts with a well-formed
request line and holds the header terminator, `parse_request` does not return a
request: the second line is empty and `pop_back` is called on it. -/
theorem parse_request_empty_header_line :
    parse_request { buf := "GET / HTTP/1.1\r\n\n\r\n\r\n".toList, good := true } = .undefined
      ∧ startsWith "GET / HTTP/1.1\r\n\n\r\n\r\n".toList
          (requestLineText "GET".toList "/".toList "1.1".toList ++ ['\r', '\n']) = true
      ∧ hasInfix "GET / HTTP/1.1\r\n\n\r\n\r\n".toList terminator = true := by
  decide

/-- C10: the buffer `\n\r\n\r\n` holds the header terminator, the first line read by
`getline` is empty, and `parse_request` calls `pop_back` on it. -/
theorem parse_request_empty_first_line :
    hasInfix "\n\r\n\r\n".toList terminator = true
      ∧ (getline { buf := "\n\r\n\r\n".toList, good := true } []).2 = []
      ∧ parse_request { buf := "\n\r\n\r\n".toList, good := true } = .undefined := by
  decide

/-- Whatever follows a well-formed request line, `parse_request` either returns a
request with the three parts of the line or reaches the undefined `pop_back`. -/
theorem parse_request_request_line (m p v rest : Str)
    (hm : ' ' ∉ m ∧ '\n' ∉ m) (hp : ' ' ∉ p ∧ '\n' ∉ p) (hv : ' ' ∉ v ∧ '\n' ∉ v) :
    parse_request { buf := requestLineText m p v ++ '\r' :: '\n' :: rest, good := true }
        = .undefined
      ∨ ∃ request stream,
          parse_request { buf := requestLineText m p v ++ '\r' :: '\n' :: rest, good := true }
            = .returned request stream
          ∧ request.method = m ∧ request.path = p ∧ request.http_version = v := by
  have hloop : ∀ (fuel : Nat) (stream : IStream) (line : Str) (request : Request),
      header_loop fuel stream line request = .undefined
      ∨ header_loop fuel stream line request = .out_of_fuel
      ∨ ∃ r s, header_loop fuel stream line request = .returned r s
          ∧ r.method = request.method ∧ r.path = request.path
          ∧ r.http_version = request.http_version := by
    intro fuel
    induction fuel with
    | zero => intro stream line request; right; left; rfl
    | succ f ih =>
      intro stream line request
      rw [header_loop]
      cases hpb : pop_back (getline stream line).2 with
      | none => left; rfl
      | some l2 =>
        cases hr : regex_match headerRegex l2 with
        | none => right; right; exact ⟨request, (getline stream line).1, by simp only [hr], rfl, rfl, rfl⟩
        | some sm =>
          simp only [hr]
          exact ih _ _ _
  have ht := parse_request_terminates
    { buf := requestLineText m p v ++ '\r' :: '\n' :: rest, good := true }
  have g := getline_crlf (requestLineText m p v) rest []
    (not_mem_requestLineText m p v hm.2 hp.2 hv.2)
  unfold parse_request at ht ⊢
  simp only [g, pop_back_concat, regex_match_requestLine m p v hm.1 hp.1 hv.1] at ht ⊢
  rcases hloop _ _ _ _ with h | h | ⟨r, s, h, h1, h2, h3⟩
  · left; exact h
  · exact absurd h ht
  · right; exact ⟨r, s, h, h1, h2, h3⟩

/-! ## Dispatch -/

theorem respond_from_hit (rx : Str → Str → Option (List Str)) (index : Nat) (res : Route)
    (rest : List Route) (request : Request) (sm : List Str) (handler : Handler)
    (h1 : rx res.pattern request.path = some sm)
    (h2 : res.handlers.find request.method = some handler) :
    respond_from rx index (res :: rest) request
      = (.Responding (handler { request with path_match := sm }).2,
          [.invoke index request.method,
           .async_write (handler { request with path_match := sm }).1]) := by
  simp only [respond_from, h1, h2]

theorem respond_from_miss (rx : Str → Str → Option (List Str)) (index : Nat) (res : Route)
    (rest : List Route) (request : Request) (h : res.eligible rx request = false) :
    respond_from rx index (res :: rest) request = respond_from rx (index + 1) rest request := by
  unfold Route.eligible at h
  rw [respond_from]
  cases h1 : rx res.pattern request.path with
  | none => rfl
  | some sm =>
    cases h2 : res.handlers.find request.method with
    | none => rfl
    | some handler => simp [h1, h2] at h

theorem respond_from_skip (rx : Str → Str → Option (List Str)) (request : Request)
    (pre tail : List Route) (h : ∀ r ∈ pre, r.eligible rx request = false) :
    ∀ index : Nat, respond_from rx index (pre ++ tail) request
      = respond_from rx (index + pre.length) tail request := by
  induction pre with
  | nil => intro index; rfl
  | cons r pre ih =>
    intro index
    rw [List.cons_append, respond_from_miss rx index r _ request (h r (List.mem_cons_self _ _)),
      ih (fun x hx => h x (List.mem_cons_of_mem _ hx))]
    simp only [List.length_cons]
    congr 1
    omega

theorem respond_at (rx : Str → Str → Option (List Str)) (request : Request)
    (pre : List Route) (res : Route) (post : List Route) (sm : List Str) (handler : Handler)
    (hpre : ∀ r ∈ pre, r.eligible rx request = false)
    (h1 : rx res.pattern request.path = some sm)
    (h2 : res.handlers.find request.method = some handler) :
    respond rx (pre ++ res :: post) request
      = (.Responding (handler { request with path_match := sm }).2,
          [.invoke pre.length request.method,
           .async_write (handler { request with path_match := sm }).1]) := by
  unfold respond
  rw [respond_from_skip rx request pre _ hpre 0, respond_from_hit rx _ res post request sm handler h1 h2]
  simp

theorem respond_none (rx : Str → Str → Option (List Str)) (request : Request)
    (table : List Route) (h : ∀ r ∈ table, r.eligible rx request = false) :
    respond rx table request = (.Closed, []) := by
  unfold respond
  have := respond_from_skip rx request table [] h 0
  rw [List.append_nil] at this
  rw [this]
  rfl

/-- C3: `respond` walks `all_resources` in order.  When the entries of `pre` are not
eligible (pattern not matching the path, or no handler for the method) and the next
entry `res` is, exactly the handler of `res` for the method is called, with the
sub-matches of its pattern, and its output written: no other handler runs.  In
particular an earlier entry whose pattern matches but that has no handler for the
method is passed over in favour of a later one.  When no entry is eligible nothing is
called and nothing is written. -/
theorem respond_first_eligible (rx : Str → Str → Option (List Str)) (request : Request) :
    (∀ (pre : List Route) (res : Route) (post : List Route) (sm : List Str) (handler : Handler),
        (∀ r ∈ pre, r.eligible rx request = false) →
        rx res.pattern request.path = some sm →
        res.handlers.find request.method = some handler →
        respond rx (pre ++ res :: post) request
          = (.Responding (handler { request with path_match := sm }).2,
              [.invoke pre.length request.method,
               .async_write (handler { request with path_match := sm }).1]))
    ∧ (∀ (p1 p2 : Route) (post : List Route) (sm1 sm2 : List Str) (handler : Handler),
        rx p1.pattern request.path = some sm1 →
        p1.handlers.find request.method = none →
        rx p2.pattern request.path = some sm2 →
        p2.handlers.find request.method = some handler →
        respond rx (p1 :: p2 :: post) request
          = (.Responding (handler { request with path_match := sm2 }).2,
              [.invoke 1 request.method,
               .async_write (handler { request with path_match := sm2 }).1]))
    ∧ (∀ table : List Route, (∀ r ∈ table, r.eligible rx request = false) →
        respond rx table request = (.Closed, [])) := by
  refine ⟨fun pre res post sm handler hpre h1 h2 =>
      respond_at rx request pre res post sm handler hpre h1 h2, ?_,
    fun table h => respond_none rx request table h⟩
  intro p1 p2 post sm1 sm2 handler _ hn h1 h2
  have hpre : ∀ r ∈ [p1], r.eligible rx request = false := by
    intro r hr
    rw [List.mem_singleton] at hr
    subst hr
    simp [Route.eligible, hn]
  exact respond_at rx request [p1] p2 post sm2 handler hpre h1 h2

/-- C3, instance: the table `/xy` (POST only), `/x.*`
(GET), `/.*` (GET) and the request `GET /xy`: the second entry is served. -/
theorem respond_first_eligible_witness :
    respond literalStarRx
        ([{ pattern := "/xy".toList, handlers := [("POST".toList, handlerB)] }]
          ++ { pattern := "/x.*".toList, handlers := [("GET".toList, handlerA)] }
          :: [{ pattern := "/.*".toList, handlers := [("GET".toList, handlerB)] }]) getXY
      = (.Responding getXY, [.invoke 1 "GET".toList, .async_write ['A']]) :=
  (respond_first_eligible literalStarRx getXY).1
    [{ pattern := "/xy".toList, handlers := [("POST".toList, handlerB)] }]
    { pattern := "/x.*".toList, handlers := [("GET".toList, handlerA)] }
    [{ pattern := "/.*".toList, handlers := [("GET".toList, handlerB)] }]
    [] handlerA (by decide) (by decide) rfl

theorem respond_from_state (rx : Str → Str → Option (List Str)) (request : Request) :
    ∀ (table : List Route) (index : Nat),
      (respond_from rx index table request).1 = .Closed
      ∨ ∃ r, (respond_from rx index table request).1 = .Responding r := by
  intro table
  induction table with
  | nil => intro index; left; rfl
  | cons res rest ih =>
    intro index
    rw [respond_from]
    cases h1 : rx res.pattern request.path with
    | none => exact ih _
    | some sm =>
      cases h2 : res.handlers.find request.method with
      | none => exact ih _
      | some handler => right; exact ⟨_, rfl⟩

/-! ## Keep-alive -/

theorem gt_1_05_of_ge_1_1 (x : FloatVal) (h : x.ge_1_1) : x.gt_1_05 = true := by
  cases x with
  | finite neg n =>
    obtain ⟨h1, h2⟩ := h
    subst h1
    have e1 : (2 : Nat) ^ 149 = 2 ^ 52 * 2 ^ 97 := by norm_num
    have hpos : 0 < (2 : Nat) ^ 97 := by positivity
    rw [e1] at h2
    have h3 : 10 * (4728779608739021 * 2 ^ 97) < 10 * n := by
      calc 10 * (4728779608739021 * 2 ^ 97) = 47287796087390210 * 2 ^ 97 := by ring
        _ < 11 * 2 ^ 52 * 2 ^ 97 := by
          apply Nat.mul_lt_mul_of_pos_right _ hpos
          norm_num
        _ = 11 * (2 ^ 52 * 2 ^ 97) := by ring
        _ ≤ 10 * n := h2
    have h4 : 4728779608739021 * 2 ^ 97 < n := Nat.lt_of_mul_lt_mul_left h3
    show (!false && decide (4728779608739021 * 2 ^ 97 < n)) = true
    rw [decide_eq_true h4]
    rfl
  | inf neg =>
    have h1 : neg = false := h
    subst h1
    rfl
  | nan => exact absurd h id

set_option maxRecDepth 100000 in
theorem strtof_1_1 : strtof "1.1".toList = .value (.finite false (9227469 * 2 ^ 126)) := by
  decide

set_option maxRecDepth 100000 in
theorem strtof_1_0 : strtof "1.0".toList = .value (.finite false (2 ^ 149)) := by
  decide

theorem stof_1_1 (underflow : Bool → Nat → Nat → Option Nat) :
    stof underflow "1.1".toList = .value (.finite false (9227469 * 2 ^ 126)) := by
  simp only [stof, strtof_1_1]

theorem stof_1_0 (underflow : Bool → Nat → Nat → Option Nat) :
    stof underflow "1.0".toList = .value (.finite false (2 ^ 149)) := by
  simp only [stof, strtof_1_0]

/-- C5: the step of the connection cycle at the completion of the write.  Without a
write error the cycle is back at AwaitingHeaders with a new `async_read_until` issued
when the version of the request is `1.1`, and more generally when `stof` converts it
to a number that is at least 1.1; it is Closed, with nothing issued, when the version
is `1.0`.  After a write error it is Closed whatever the version. -/
theorem keep_alive_step (underflow : Bool → Nat → Nat → Option Nat)
    (rx : Str → Str → Option (List Str)) (all_resources : List Route) (request : Request) :
    (request.http_version = "1.1".toList →
        step underflow rx all_resources (.Responding request) (.write false)
          = (.AwaitingHeaders, [.async_read_until]))
    ∧ (∀ x : FloatVal, stof underflow request.http_version = .value x → x.ge_1_1 →
        step underflow rx all_resources (.Responding request) (.write false)
          = (.AwaitingHeaders, [.async_read_until]))
    ∧ (request.http_version = "1.0".toList →
        step underflow rx all_resources (.Responding request) (.write false) = (.Closed, []))
    ∧ step underflow rx all_resources (.Responding request) (.write true) = (.Closed, []) := by
  refine ⟨?_, ?_, ?_, rfl⟩
  · intro h
    simp only [step, on_write, h, stof_1_1]
    rfl
  · intro x hx hge
    simp only [step, on_write, hx, gt_1_05_of_ge_1_1 x hge]
    rfl
  · intro h
    simp only [step, on_write, h, stof_1_0]
    rfl

/-- C5, instance: the request `GET /xy HTTP/1.1`. -/
theorem keep_alive_step_witness :
    step underflowReported literalStarRx [] (.Responding getXY) (.write false)
      = (.AwaitingHeaders, [.async_read_until]) :=
  (keep_alive_step underflowReported literalStarRx [] getXY).1 rfl

/-! ## The body read -/

theorem sub64_of_le (l k : Nat) (hl : l < 2 ^ 64) (hk : k ≤ l) : sub64 l k = l - k := by
  unfold sub64
  have hk2 : k < 2 ^ 64 := lt_of_le_of_lt hk hl
  rw [Nat.mod_eq_of_lt hl, Nat.mod_eq_of_lt hk2]
  have e : l + (2 ^ 64 - k) = (l - k) + 2 ^ 64 := by omega
  rw [e, Nat.add_mod_right]
  exact Nat.mod_eq_of_lt (by omega)

theorem sub64_of_gt (l k : Nat) (hk : k < 2 ^ 64) (hl : l < k) :
    sub64 l k = 2 ^ 64 - (k - l) := by
  unfold sub64
  have hl2 : l < 2 ^ 64 := lt_trans hl hk
  rw [Nat.mod_eq_of_lt hl2, Nat.mod_eq_of_lt hk]
  have e : l + (2 ^ 64 - k) = 2 ^ 64 - (k - l) := by omega
  rw [e]
  exact Nat.mod_eq_of_lt (by omega)

/-- C6: on the buffer `POST / HTTP/1.1`, `Content-Length: 0`, the empty line and one
more byte `X` (38 bytes up to the terminator, one byte behind it) the completion
handler of `async_read_until` asks the socket for `2 ^ 64 - 1` more bytes before any
handler is called. -/
theorem body_read_wraps :
    (on_read_until literalStarRx
        [{ pattern := "/.*".toList, handlers := [("POST".toList, handlerA)] }] false
        "POST / HTTP/1.1\r\nContent-Length: 0\r\n\r\nX".toList 38).2
      = [.async_read 18446744073709551615] := by
  decide

/-- The number of bytes asked of the socket when a Content-Length is declared: the
declared length minus the bytes already behind the terminator, modulo `2 ^ 64`. -/
theorem body_read_request (rx : Str → Str → Option (List Str)) (all_resources : List Route)
    (buffer : Str) (bytes_transferred : Nat) (request : Request) (stream : IStream)
    (v : Str) (n : Nat)
    (hp : parse_request { buf := buffer, good := true } = .returned request stream)
    (hv : request.header.find "Content-Length".toList = some v)
    (hn : stoull v = .value n) :
    on_read_until rx all_resources false buffer bytes_transferred
      = (.AwaitingBody request stream,
          [.async_read (sub64 n (sub64 buffer.length bytes_transferred))]) := by
  simp only [on_read_until, hp, hv, hn, Bool.false_eq_true, if_false]

/-! ## The steps of the listener -/

/-- C7, as the code has it: a successful accept leaves one accept pending again and one
more connection started; an accept error logs one line, starts no connection and
leaves no accept pending, so that the listener makes no further step. -/
theorem accept_rearm (l : Listener) (h : l.pending = 1) :
    (l.on_accept false).pending = 1
      ∧ (l.on_accept false).connections = l.connections + 1
      ∧ (l.on_accept true).pending = 0
      ∧ (l.on_accept true).connections = l.connections
      ∧ (l.on_accept true).log = l.log ++ ["ec!=0 ,error"]
      ∧ ∀ l2 : Listener, ¬ Listener.Step (l.on_accept true) l2 := by
  refine ⟨?_, ?_, ?_, ?_, ?_, ?_⟩
  · simp [Listener.on_accept, Listener.accept, h]
  · simp [Listener.on_accept, Listener.accept]
  · simp [Listener.on_accept, h]
  · simp [Listener.on_accept]
  · simp [Listener.on_accept]
  · intro l2 hs
    have h0 : (l.on_accept true).pending = 0 := by simp [Listener.on_accept, h]
    have := hs.1
    omega

/-- C7, instance: the listener as `start()` leaves it. -/
theorem accept_rearm_witness :
    Listener.started.pending = 1
      ∧ (Listener.started.on_accept false).pending = 1
      ∧ (Listener.started.on_accept true).pending = 0 :=
  ⟨by decide, (accept_rearm Listener.started (by decide)).1,
    (accept_rearm Listener.started (by decide)).2.2.1⟩

/-- C7 does not hold as stated: on the listener as `start()` leaves it, the completion
of the accept with an error is a step after which no accept is pending. -/
theorem accept_error_stops :
    Listener.Step Listener.started (Listener.started.on_accept true)
      ∧ (Listener.started.on_accept true).pending = 0
      ∧ ¬ ∃ l2 : Listener, Listener.Step (Listener.started.on_accept true) l2 := by
  refine ⟨⟨by decide, true, rfl⟩, by decide, ?_⟩
  rintro ⟨l2, h, _⟩
  exact absurd h (by decide)

/-! ## Requests whose first line is not a request line -/

/-- C8 does not hold as stated: the first line `hello` is not a request line and
`parse_request` returns the empty request, but with a table whose pattern `.*` has a
handler for the empty method that handler is called and its output written. -/
theorem unmatched_line_dispatched :
    parse_request { buf := "hello\r\n\r\n".toList, good := true }
        = .returned Request.empty { buf := "\r\n".toList, good := true }
      ∧ on_read_until literalStarRx
          [{ pattern := ".*".toList, handlers := [([], handlerA)] }] false
          "hello\r\n\r\n".toList 9
        = (.Responding Request.empty, [.invoke 0 [], .async_write ['A']]) := by
  decide

/-- C8, as the code has it: when the first line is not empty and, its last character
removed, does not match the request-line pattern, `parse_request` returns the empty
request without reading further; and when no entry of the table has both a pattern
matching the empty path and a handler for the empty method, the connection cycle calls
no handler, writes nothing and ends. -/
theorem unmatched_line_ignored (underflow : Bool → Nat → Nat → Option Nat)
    (rx : Str → Str → Option (List Str)) (all_resources : List Route) (buffer : Str) (bytes_transferred : Nat) (line : Str)
    (h1 : pop_back (getline { buf := buffer, good := true } []).2 = some line)
    (h2 : regex_match requestLineRegex line = none) :
    parse_request { buf := buffer, good := true }
        = .returned Request.empty (getline { buf := buffer, good := true } []).1
      ∧ ((∀ r ∈ all_resources, r.eligible rx Request.empty = false) →
          step underflow rx all_resources .AwaitingHeaders
              (.read_until false buffer bytes_transferred)
            = (.Closed, [])) := by
  have hp : parse_request { buf := buffer, good := true }
      = .returned Request.empty (getline { buf := buffer, good := true } []).1 := by
    unfold parse_request
    simp only [h1, h2]
  refine ⟨hp, fun ht => ?_⟩
  have hf : Request.empty.header.find "Content-Length".toList = none := rfl
  simp only [step, on_read_until, hp, hf, Bool.false_eq_true, if_false]
  exact respond_none rx Request.empty all_resources ht

/-- C8, instance: the buffer `hello`, CR LF, CR LF and a
table with the pattern `/.*` for GET. -/
theorem unmatched_line_ignored_witness :
    parse_request { buf := "hello\r\n\r\n".toList, good := true }
        = .returned Request.empty (getline { buf := "hello\r\n\r\n".toList, good := true } []).1
      ∧ step underflowReported literalStarRx
          [{ pattern := "/.*".toList, handlers := [("GET".toList, handlerA)] }]
          .AwaitingHeaders (.read_until false "hello\r\n\r\n".toList 9)
        = (.Closed, []) :=
  ⟨(unmatched_line_ignored underflowReported literalStarRx
      [{ pattern := "/.*".toList, handlers := [("GET".toList, handlerA)] }]
      "hello\r\n\r\n".toList 9 "hello".toList (by decide) (by decide)).1,
   (unmatched_line_ignored underflowReported literalStarRx
      [{ pattern := "/.*".toList, handlers := [("GET".toList, handlerA)] }]
      "hello\r\n\r\n".toList 9 "hello".toList (by decide) (by decide)).2 (by decide)⟩

/-! ## Exceptions -/

/-- C9 does not hold as stated: the request `GET / HTTP/1.1` with the header
`Content-Length: abc` parses and `stoull` throws in the completion handler of the
header read; the request `GET / HTTP/x` parses, is dispatched, and `stof` throws in
the completion handler of the write. -/
theorem conversion_throws :
    step underflowReported literalStarRx
        [{ pattern := "/.*".toList, handlers := [("GET".toList, handlerA)] }]
        .AwaitingHeaders
        (.read_until false "GET / HTTP/1.1\r\nContent-Length: abc\r\n\r\n".toList 39)
      = (.Thrown .invalid_argument, [])
    ∧ step underflowReported literalStarRx
        [{ pattern := "/.*".toList, handlers := [("GET".toList, handlerA)] }]
        .AwaitingHeaders (.read_until false "GET / HTTP/x\r\n\r\n".toList 16)
      = (.Responding getVersionX, [.invoke 0 "GET".toList, .async_write ['A']])
    ∧ step underflowReported literalStarRx
        [{ pattern := "/.*".toList, handlers := [("GET".toList, handlerA)] }]
        (.Responding getVersionX) (.write false)
      = (.Thrown .invalid_argument, []) := by
  decide

theorem char_eq_of_toNat_eq (a b : Char) (h : a.toNat = b.toNat) : a = b := by
  apply Char.ext
  apply UInt32.ext
  exact h


/-! ## The order of the routing table -/

theorem strLt_irrefl (a : Str) : strLt a a = false := by
  induction a with
  | nil => rfl
  | cons c cs ih => simp [strLt, ih]

theorem strLt_trans : ∀ (a b c : Str), strLt a b = true → strLt b c = true → strLt a c = true := by
  intro a
  induction a with
  | nil =>
    intro b c h1 h2
    cases b with
    | nil => simp [strLt] at h1
    | cons y ys =>
      cases c with
      | nil => simp [strLt] at h2
      | cons z zs => rfl
  | cons x xs ih =>
    intro b c h1 h2
    cases b with
    | nil => simp [strLt] at h1
    | cons y ys =>
      cases c with
      | nil => simp [strLt] at h2
      | cons z zs =>
        simp only [strLt, Bool.or_eq_true, decide_eq_true_eq, Bool.and_eq_true] at h1 h2 ⊢
        rcases h1 with h1 | ⟨e1, h1⟩
        · rcases h2 with h2 | ⟨e2, _⟩
          · left; omega
          · subst e2; left; exact h1
        · subst e1
          rcases h2 with h2 | ⟨e2, h2⟩
          · left; exact h2
          · subst e2; right; exact ⟨rfl, ih _ _ h1 h2⟩

theorem strLt_total : ∀ (a b : Str), a ≠ b → strLt a b = false → strLt b a = true := by
  intro a
  induction a with
  | nil =>
    intro b hne h
    cases b with
    | nil => exact absurd rfl hne
    | cons y ys => simp [strLt] at h
  | cons x xs ih =>
    intro b hne h
    cases b with
    | nil => rfl
    | cons y ys =>
      simp only [strLt, Bool.or_eq_false_iff, decide_eq_false_iff_not, Bool.and_eq_false_imp,
        decide_eq_true_eq] at h
      simp only [strLt, Bool.or_eq_true, decide_eq_true_eq, Bool.and_eq_true]
      obtain ⟨h1, h2⟩ := h
      by_cases e : x = y
      · subst e
        right
        refine ⟨rfl, ih ys (fun e2 => hne (by rw [e2])) (h2 rfl)⟩
      · left
        have : x.toNat ≠ y.toNat := fun e2 => e (char_eq_of_toNat_eq x y e2)
        omega

theorem patterns_register (m : resource_type) (p method : Str) (handler : Handler) :
    patterns (m.register p method handler) = insertKey p (patterns m) := by
  induction m with
  | nil => rfl
  | cons r rs ih =>
    unfold patterns at ih ⊢
    by_cases h1 : r.pattern = p
    · simp [resource_type.register, insertKey, h1]
    · by_cases h2 : strLt p r.pattern = true
      · simp [resource_type.register, insertKey, h1, h2]
      · simp [resource_type.register, insertKey, h1, h2, ih]

theorem mem_insertKey (p k : Str) (ks : List Str) : k ∈ insertKey p ks ↔ k = p ∨ k ∈ ks := by
  induction ks with
  | nil => simp [insertKey]
  | cons a as ih =>
    by_cases h1 : a = p
    · subst h1
      simp [insertKey]
    · by_cases h2 : strLt p a = true
      · simp [insertKey, h1, h2]
      · have h3 : strLt p a = false := by simpa using h2
        simp only [insertKey, h1, h3, if_false, Bool.false_eq_true, List.mem_cons, ih]
        tauto

theorem ascending_insertKey (p : Str) (ks : List Str) (h : Ascending ks) :
    Ascending (insertKey p ks) := by
  unfold Ascending at h ⊢
  induction ks with
  | nil => simp [insertKey]
  | cons a as ih =>
    rw [List.pairwise_cons] at h
    obtain ⟨ha, has⟩ := h
    by_cases h1 : a = p
    · subst h1
      simp only [insertKey, if_true]
      exact List.pairwise_cons.2 ⟨ha, has⟩
    · by_cases h2 : strLt p a = true
      · simp only [insertKey, h1, h2, if_false, if_true]
        refine List.pairwise_cons.2 ⟨?_, List.pairwise_cons.2 ⟨ha, has⟩⟩
        intro b hb
        rcases List.mem_cons.1 hb with hb | hb
        · subst hb; exact h2
        · exact strLt_trans _ _ _ h2 (ha b hb)
      · simp only [insertKey, h1, h2, if_false]
        refine List.pairwise_cons.2 ⟨?_, ih has⟩
        intro b hb
        rcases (mem_insertKey p b as).1 hb with hb | hb
        · subst hb
          exact strLt_total _ _ (fun e => h1 e.symm) (by simpa using h2)
        · exact ha b hb

theorem registerAll_from (regs : List Registration) :
    ∀ m : resource_type, Ascending (patterns m) →
      Ascending (patterns (regs.foldl (fun m r => m.register r.1 r.2.1 r.2.2) m))
      ∧ ∀ k, k ∈ patterns (regs.foldl (fun m r => m.register r.1 r.2.1 r.2.2) m)
          ↔ k ∈ patterns m ∨ ∃ reg ∈ regs, reg.1 = k := by
  induction regs with
  | nil =>
    intro m hm
    refine ⟨hm, fun k => ⟨fun h => Or.inl h, ?_⟩⟩
    rintro (h | ⟨r, hr, _⟩)
    · exact h
    · exact absurd hr (List.not_mem_nil _)
  | cons reg regs ih =>
    intro m hm
    have hm2 : Ascending (patterns (m.register reg.1 reg.2.1 reg.2.2)) := by
      rw [patterns_register]; exact ascending_insertKey _ _ hm
    obtain ⟨h1, h2⟩ := ih _ hm2
    refine ⟨h1, fun k => ?_⟩
    simp only [List.foldl_cons, h2 k, patterns_register, mem_insertKey, List.mem_cons]
    constructor
    · rintro (⟨h | h⟩ | ⟨r, hr, e⟩)
      · right; exact ⟨reg, Or.inl rfl, h.symm⟩
      · left; exact h
      · right; exact ⟨r, Or.inr hr, e⟩
    · rintro (h | ⟨r, hr | hr, e⟩)
      · left; right; exact h
      · subst hr; left; left; exact e.symm
      · right; exact ⟨r, hr, e⟩

theorem ascending_registerAll (regs : List Registration) :
    (registerAll regs).Pairwise fun a b => strLt a.pattern b.pattern = true := by
  have h := (registerAll_from regs [] (by simp [Ascending, patterns])).1
  unfold Ascending patterns at h
  exact (List.pairwise_map).1 h

theorem split_at_index {α : Type} (l : List α) :
    ∀ (i : Nat) (a : α), l[i]? = some a → ∃ pre post, l = pre ++ a :: post ∧ pre.length = i := by
  induction l with
  | nil => intro i a h; simp at h
  | cons x xs ih =>
    intro i a h
    cases i with
    | zero =>
      simp at h
      subst h
      exact ⟨[], xs, rfl, rfl⟩
    | succ n =>
      simp at h
      obtain ⟨pre, post, e, hl⟩ := ih n a h
      exact ⟨x :: pre, post, by rw [e]; rfl, by simp [hl]⟩

/-- C4 does not hold as stated: `/x.*` is registered before `/.*`, both match the path
`/xy` and both have a handler for GET, but the table built by `start()` lists `/.*`
first and it is the handler of `/.*`, the pattern registered second, that is called. -/
theorem registration_order_not_kept :
    patterns (ServerBase.configured registrationsXY []).start.all_resources
        = ["/.*".toList, "/x.*".toList]
      ∧ (literalStarRx "/x.*".toList getXY.path).isSome = true
      ∧ (literalStarRx "/.*".toList getXY.path).isSome = true
      ∧ respond literalStarRx (ServerBase.configured registrationsXY []).start.all_resources
          getXY
        = (.Responding getXY, [.invoke 0 "GET".toList, .async_write ['B']]) := by
  decide

/-- C4, as the code has it: the table built by `start()` lists the explicit routes and
then the default routes, each group in strictly ascending byte order of the pattern
strings (the iteration order of `std::map`), whatever the order of registration; the
explicit patterns listed are those registered.  So of two explicit entries the one
with the smaller pattern comes first, and the handler called is that of the eligible
explicit entry with the smallest pattern. -/
theorem start_table_order (rx : Str → Str → Option (List Str))
    (regs defaults : List Registration) (request : Request) :
    (ServerBase.configured regs defaults).start.all_resources
        = registerAll regs ++ registerAll defaults
    ∧ Ascending (patterns (registerAll regs))
    ∧ Ascending (patterns (registerAll defaults))
    ∧ (∀ k : Str, k ∈ patterns (registerAll regs) ↔ ∃ reg ∈ regs, reg.1 = k)
    ∧ (∀ (i j : Nat) (p1 p2 : Route),
        (registerAll regs)[i]? = some p1 → (registerAll regs)[j]? = some p2 →
        (i < j ↔ strLt p1.pattern p2.pattern = true))
    ∧ (∀ (i : Nat) (p1 : Route) (sm : List Str) (handler : Handler),
        (registerAll regs)[i]? = some p1 →
        rx p1.pattern request.path = some sm →
        p1.handlers.find request.method = some handler →
        (∀ r ∈ registerAll regs, strLt r.pattern p1.pattern = true →
          r.eligible rx request = false) →
        respond rx (ServerBase.configured regs defaults).start.all_resources request
          = (.Responding (handler { request with path_match := sm }).2,
              [.invoke i request.method,
               .async_write (handler { request with path_match := sm }).1])) := by
  have hasc := ascending_registerAll regs
  have hmem := (registerAll_from regs [] (by simp [Ascending, patterns])).2
  have htable : (ServerBase.configured regs defaults).start.all_resources
      = registerAll regs ++ registerAll defaults := by
    simp [ServerBase.configured, ServerBase.start]
  refine ⟨htable, (registerAll_from regs [] (by simp [Ascending, patterns])).1,
    (registerAll_from defaults [] (by simp [Ascending, patterns])).1, ?_, ?_, ?_⟩
  · intro k
    have := hmem k
    unfold registerAll
    rw [this]
    constructor
    · rintro (h | h)
      · exact absurd h (List.not_mem_nil _)
      · exact h
    · intro h
      exact Or.inr h
  · intro i j p1 p2 h1 h2
    obtain ⟨hi, e1⟩ := List.getElem?_eq_some_iff.1 h1
    obtain ⟨hj, e2⟩ := List.getElem?_eq_some_iff.1 h2
    have hp := List.pairwise_iff_getElem.1 hasc
    constructor
    · intro hij
      have := hp i j hi hj hij
      rw [e1, e2] at this
      exact this
    · intro hlt
      rcases Nat.lt_trichotomy i j with h | h | h
      · exact h
      · subst h
        rw [e1] at e2
        subst e2
        rw [strLt_irrefl] at hlt
        exact absurd hlt (by decide)
      · have := hp j i hj hi h
        rw [e1, e2] at this
        have h3 := strLt_trans _ _ _ hlt this
        rw [strLt_irrefl] at h3
        exact absurd h3 (by decide)
  · intro i p1 sm handler h1 hsm hh hleast
    obtain ⟨pre, post, e, hl⟩ := split_at_index _ i p1 h1
    rw [htable, e]
    rw [e] at hasc hleast
    have hpre : ∀ r ∈ pre, r.eligible rx request = false := by
      intro r hr
      apply hleast r (List.mem_append_left _ hr)
      exact (List.pairwise_append.1 hasc).2.2 r hr p1 (List.mem_cons_self _ _)
    have := respond_at rx request pre p1 (post ++ registerAll defaults) sm handler hpre hsm hh
    rw [hl] at this
    rw [← this]
    simp

/-- C4, instance: the registrations `/x.*` then `/.*` and the
request `GET /xy`: the entry of `/.*`, at position 0, is the one served. -/
theorem start_table_order_witness :
    respond literalStarRx (ServerBase.configured registrationsXY []).start.all_resources getXY
      = (.Responding getXY, [.invoke 0 "GET".toList, .async_write ['B']]) :=
  (start_table_order literalStarRx registrationsXY [] getXY).2.2.2.2.2 0
    { pattern := "/.*".toList, handlers := [("GET".toList, handlerB)] } [] handlerB
    rfl (by decide) rfl (by decide)

/-! ## The conversions of `stoull` and `stof` -/

theorem digit_cases (c : Char) (h : isDigitChar c = true) :
    c = '0' ∨ c = '1' ∨ c = '2' ∨ c = '3' ∨ c = '4' ∨ c = '5' ∨ c = '6' ∨ c = '7'
      ∨ c = '8' ∨ c = '9' := by
  unfold isDigitChar digitVal at h
  by_cases hc : '0'.toNat ≤ c.toNat ∧ c.toNat ≤ '9'.toNat
  · obtain ⟨h1, h2⟩ := hc
    have e0 : '0'.toNat = 48 := by decide
    have e9 : '9'.toNat = 57 := by decide
    rw [e0] at h1
    rw [e9] at h2
    have hcases : c.toNat = 48 ∨ c.toNat = 49 ∨ c.toNat = 50 ∨ c.toNat = 51 ∨ c.toNat = 52
        ∨ c.toNat = 53 ∨ c.toNat = 54 ∨ c.toNat = 55 ∨ c.toNat = 56 ∨ c.toNat = 57 := by omega
    rcases hcases with e | e | e | e | e | e | e | e | e | e
    · left; exact char_eq_of_toNat_eq _ _ e
    · right; left; exact char_eq_of_toNat_eq _ _ e
    · right; right; left; exact char_eq_of_toNat_eq _ _ e
    · right; right; right; left; exact char_eq_of_toNat_eq _ _ e
    · right; right; right; right; left; exact char_eq_of_toNat_eq _ _ e
    · right; right; right; right; right; left; exact char_eq_of_toNat_eq _ _ e
    · right; right; right; right; right; right; left; exact char_eq_of_toNat_eq _ _ e
    · right; right; right; right; right; right; right; left; exact char_eq_of_toNat_eq _ _ e
    · right; right; right; right; right; right; right; right; left
      exact char_eq_of_toNat_eq _ _ e
    · right; right; right; right; right; right; right; right; right
      exact char_eq_of_toNat_eq _ _ e
  · rw [if_neg hc] at h
    exact absurd h (by decide)

theorem digit_not_space (c : Char) (h : isDigitChar c = true) : isspace c = false := by
  rcases digit_cases c h with e | e | e | e | e | e | e | e | e | e <;> subst e <;> decide

theorem digit_not_sign (c : Char) (h : isDigitChar c = true) : c ≠ '+' ∧ c ≠ '-' := by
  rcases digit_cases c h with e | e | e | e | e | e | e | e | e | e <;> subst e <;> decide

theorem digitVal_of_digit (c : Char) (h : isDigitChar c = true) :
    digitVal c = some (c.toNat - '0'.toNat) := by
  unfold isDigitChar at h
  unfold digitVal at h ⊢
  by_cases hc : '0'.toNat ≤ c.toNat ∧ c.toNat ≤ '9'.toNat
  · rw [if_pos hc]
  · rw [if_neg hc] at h
    exact absurd h (by decide)

theorem digitVal_of_not_digit (c : Char) (h : isDigitChar c = false) : digitVal c = none := by
  unfold isDigitChar at h
  cases hd : digitVal c with
  | none => rfl
  | some d => simp [hd] at h

theorem takeDigits_digits (ds rest : Str) (hds : ∀ c ∈ ds, isDigitChar c = true)
    (hrest : ∀ c ∈ rest.head?, isDigitChar c = false) :
    takeDigits digitVal (ds ++ rest) = (ds.map fun c => c.toNat - '0'.toNat, rest) := by
  induction ds with
  | nil =>
    cases rest with
    | nil => rfl
    | cons c cs =>
      have h := digitVal_of_not_digit c (hrest c (by simp))
      simp [takeDigits, h]
  | cons d ds ih =>
    have h1 := digitVal_of_digit d (hds d (List.mem_cons_self _ _))
    have h2 := ih (fun c hc => hds c (List.mem_cons_of_mem _ hc))
    simp [takeDigits, h1, h2]

theorem digitsValue_map (ds : Str) :
    digitsValue 10 (ds.map fun c => c.toNat - '0'.toNat) = decimalValue ds := by
  unfold digitsValue decimalValue
  rw [List.foldl_map]

theorem dropWhile_all (p : Char → Bool) (ws t : Str) (h : ∀ c ∈ ws, p c = true) :
    (ws ++ t).dropWhile p = t.dropWhile p := by
  induction ws with
  | nil => rfl
  | cons c cs ih =>
    have hc := h c (List.mem_cons_self _ _)
    simp [List.dropWhile, hc, ih (fun d hd => h d (List.mem_cons_of_mem _ hd))]

theorem takeSign_other (c : Char) (cs : Str) (h1 : c ≠ '+') (h2 : c ≠ '-') :
    takeSign (c :: cs) = (false, c :: cs) := by
  unfold takeSign
  split
  · rename_i heq
    injection heq with e _
    exact absurd e h2
  · rename_i heq
    injection heq with e _
    exact absurd e h1
  · rfl

/-- After the leading white space and the optional sign of a numeric text, reading
continues at `body`; the sign is negative exactly for `-`. -/
theorem numberPrefix_read (ws sg body : Str) (h : NumberPrefix ws sg body = true) :
    takeSign ((ws ++ (sg ++ body)).dropWhile isspace) = (decide (sg = ['-']), body) := by
  unfold NumberPrefix at h
  simp only [Bool.and_eq_true, Bool.or_eq_true, decide_eq_true_eq, List.all_eq_true] at h
  obtain ⟨⟨hws, hsg⟩, hbody⟩ := h
  rw [dropWhile_all isspace ws _ hws]
  rcases hsg with (hsg | hsg) | hsg
  · subst hsg
    cases body with
    | nil => rfl
    | cons c cs =>
      simp only [decide_True, Bool.not_true, Bool.false_or, Bool.and_eq_true,
        Bool.not_eq_true', decide_eq_false_iff_not] at hbody
      obtain ⟨⟨h1, h2⟩, h3⟩ := hbody
      have hd : (([] : Str) ++ c :: cs).dropWhile isspace = c :: cs := by
        simp [List.dropWhile, h1]
      rw [hd, takeSign_other c cs h2 h3]
      rfl
  · subst hsg
    rfl
  · subst hsg
    rfl

/-- The outcome of `stoull` on white space, an optional sign, the digits `ds` and a
rest that does not start with a digit. -/
theorem stoull_spec (ws sg ds rest : Str) (hp : NumberPrefix ws sg (ds ++ rest) = true)
    (hds : ∀ c ∈ ds, isDigitChar c = true) (hrest : ∀ c ∈ rest.head?, isDigitChar c = false) :
    stoull (ws ++ (sg ++ (ds ++ rest)))
      = if ds = [] then .throws .invalid_argument
        else if 2 ^ 64 ≤ decimalValue ds then .throws .out_of_range
        else .value (if sg = ['-'] then (2 ^ 64 - decimalValue ds) % 2 ^ 64
                     else decimalValue ds) := by
  unfold stoull
  simp only [numberPrefix_read ws sg (ds ++ rest) hp, takeDigits_digits ds rest hds hrest,
    digitsValue_map, List.map_eq_nil_iff, decide_eq_true_eq]

theorem toFloat_ne_no_conversion (neg : Bool) (num den : Nat) :
    toFloat neg num den ≠ .no_conversion := by
  unfold toFloat
  split
  · exact fun h => Strtof.noConfusion h
  · split
    · exact fun h => Strtof.noConfusion h
    · exact fun h => Strtof.noConfusion h

theorem parseHexFloat_none_of_head (c : Char) (cs : Str) (h : c ≠ '0') :
    parseHexFloat (c :: cs) = none := by
  unfold parseHexFloat
  split
  · rename_i heq
    injection heq with e _
    exact absurd e h
  · rfl

theorem takeDigits_cons_digit (c : Char) (cs : Str) (h : isDigitChar c = true) :
    takeDigits digitVal (c :: cs)
      = ((c.toNat - '0'.toNat) :: (takeDigits digitVal cs).1, (takeDigits digitVal cs).2) := by
  simp [takeDigits, digitVal_of_digit c h]

theorem takeDigits_cons_other (c : Char) (cs : Str) (h : isDigitChar c = false) :
    takeDigits digitVal (c :: cs) = ([], c :: cs) := by
  simp [takeDigits, digitVal_of_not_digit c h]

theorem takeSignificand_digit (c : Char) (cs : Str) (h : isDigitChar c = true) :
    (takeSignificand digitVal (c :: cs)).1 ≠ [] := by
  unfold takeSignificand
  simp only [takeDigits_cons_digit c cs h]
  split <;> simp

theorem takeSignificand_dot (cs : Str) :
    takeSignificand digitVal ('.' :: cs)
      = ((takeDigits digitVal cs).1, (takeDigits digitVal cs).1.length,
          (takeDigits digitVal cs).2) := by
  have h : takeDigits digitVal ('.' :: cs) = ([], '.' :: cs) :=
    takeDigits_cons_other '.' cs (by decide)
  simp [takeSignificand, h]

theorem takeSignificand_other (c : Char) (cs : Str) (h : isDigitChar c = false)
    (hdot : c ≠ '.') : takeSignificand digitVal (c :: cs) = ([], 0, c :: cs) := by
  unfold takeSignificand
  simp only [takeDigits_cons_other c cs h]
  split
  · rename_i heq
    injection heq with e _
    exact absurd e hdot
  · rfl

theorem strtof_body_number (neg : Bool) (c : Char) (cs : Str)
    (h : isDigitChar c = true
      ∨ (c = '.' ∧ ∃ d ds, cs = d :: ds ∧ isDigitChar d = true)) :
    (match parseHexFloat (c :: cs) with
      | some q => toFloat neg q.1 q.2
      | none =>
        match parseDecFloat (c :: cs) with
        | some q => toFloat neg q.1 q.2
        | none => Strtof.no_conversion) ≠ .no_conversion := by
  cases hh : parseHexFloat (c :: cs) with
  | some q => exact toFloat_ne_no_conversion _ _ _
  | none =>
    have hd : ∃ q, parseDecFloat (c :: cs) = some q := by
      unfold parseDecFloat
      rcases h with h | ⟨rfl, d, ds, rfl, hdig⟩
      · have := takeSignificand_digit c cs h
        simp [this]
      · have e := takeSignificand_dot (d :: ds)
        rw [takeDigits_cons_digit d ds hdig] at e
        simp [e]
    obtain ⟨q, hq⟩ := hd
    simp only [hq]
    exact toFloat_ne_no_conversion _ _ _

theorem strtof_body_other (neg : Bool) (c : Char) (cs : Str) (h : isDigitChar c = false)
    (hdot : ¬ (c = '.' ∧ ∃ d ds, cs = d :: ds ∧ isDigitChar d = true)) :
    (match parseHexFloat (c :: cs) with
      | some q => toFloat neg q.1 q.2
      | none =>
        match parseDecFloat (c :: cs) with
        | some q => toFloat neg q.1 q.2
        | none => Strtof.no_conversion) = .no_conversion := by
  have h0 : c ≠ '0' := by
    intro e
    subst e
    exact absurd h (by decide)
  rw [parseHexFloat_none_of_head c cs h0]
  have hd : parseDecFloat (c :: cs) = none := by
    unfold parseDecFloat
    by_cases e : c = '.'
    · subst e
      have hs := takeSignificand_dot cs
      cases cs with
      | nil => simp [hs, takeDigits]
      | cons d ds =>
        have hnd : isDigitChar d = false := by
          cases hx : isDigitChar d with
          | false => rfl
          | true => exact absurd ⟨rfl, d, ds, rfl, hx⟩ hdot
        rw [takeDigits_cons_other d ds hnd] at hs
        simp [hs]
    · simp [takeSignificand_other c cs h e]
  simp only [hd]

/-- No conversion is performed exactly when, after the leading white space and the
optional sign, the text does not start with a number. -/
theorem strtof_no_conversion_iff (ws sg rest : Str) (hp : NumberPrefix ws sg rest = true) :
    strtof (ws ++ (sg ++ rest)) = .no_conversion ↔ startsNumber rest = false := by
  unfold strtof
  simp only [numberPrefix_read ws sg rest hp]
  cases rest with
  | nil =>
    simp [startsWithCI, parseHexFloat, parseDecFloat, takeSignificand, takeDigits, startsNumber]
  | cons c cs =>
    by_cases hinf : startsWithCI ['i', 'n', 'f'] (c :: cs) = true
    · simp [hinf, startsNumber]
    · by_cases hnan : startsWithCI ['n', 'a', 'n'] (c :: cs) = true
      · simp [hinf, hnan, startsNumber]
      · have e1 : startsWithCI ['i', 'n', 'f'] (c :: cs) = false := by simpa using hinf
        have e2 : startsWithCI ['n', 'a', 'n'] (c :: cs) = false := by simpa using hnan
        simp only [e1, e2, Bool.false_eq_true, if_false]
        by_cases hd : isDigitChar c = true
        · have := strtof_body_number (decide (sg = ['-'])) c cs (Or.inl hd)
          simp [this, startsNumber, hd]
        · have hd2 : isDigitChar c = false := by simpa using hd
          by_cases hdot : c = '.' ∧ ∃ d ds, cs = d :: ds ∧ isDigitChar d = true
          · have := strtof_body_number (decide (sg = ['-'])) c cs (Or.inr hdot)
            obtain ⟨rfl, d, ds, rfl, hx⟩ := hdot
            simp [this, startsNumber, hx]
          · have := strtof_body_other (decide (sg = ['-'])) c cs hd2 hdot
            rw [this]
            simp only [startsNumber, hd2, e1, e2, Bool.false_or, Bool.or_false, true_iff,
              Bool.and_eq_false_imp, decide_eq_true_eq]
            intro e
            subst e
            cases cs with
            | nil => rfl
            | cons d ds =>
              cases hx : isDigitChar d with
              | false => exact hx
              | true => exact absurd ⟨rfl, d, ds, rfl, hx⟩ hdot

theorem digit_not_inf_nan (c : Char) (cs : Str) (h : isDigitChar c = true) :
    startsWithCI ['i', 'n', 'f'] (c :: cs) = false
      ∧ startsWithCI ['n', 'a', 'n'] (c :: cs) = false := by
  rcases digit_cases c h with e | e | e | e | e | e | e | e | e | e <;> subst e <;>
    exact ⟨rfl, rfl⟩

theorem digit_not_x (c : Char) (h : isDigitChar c = true) : c.toLower ≠ 'x' := by
  rcases digit_cases c h with e | e | e | e | e | e | e | e | e | e <;> subst e <;> decide

theorem parseHexFloat_plain (ip tl : Str) (hip : ∀ c ∈ ip, isDigitChar c = true)
    (htl : tl = [] ∨ ∃ fp, tl = '.' :: fp) : parseHexFloat (ip ++ tl) = none := by
  cases ip with
  | nil =>
    rcases htl with rfl | ⟨fp, rfl⟩
    · rfl
    · exact parseHexFloat_none_of_head '.' fp (by decide)
  | cons c ip2 =>
    by_cases h0 : c = '0'
    · subst h0
      cases ip2 with
      | nil =>
        rcases htl with rfl | ⟨fp, rfl⟩
        · rfl
        · simp [parseHexFloat]
      | cons d ip3 =>
        have hd := digit_not_x d (hip d (by simp))
        simp [parseHexFloat, hd]
    · exact parseHexFloat_none_of_head c _ h0

theorem toFloat_scaled (neg : Bool) (m n : Nat) :
    toFloat neg (scaled m 10 (0 - (n : Int))).1 (scaled m 10 (0 - (n : Int))).2
      = toFloat neg m (10 ^ n) := by
  unfold scaled
  cases n with
  | zero => simp
  | succ k =>
    have h : ¬ (0 : Int) ≤ 0 - ((k + 1 : Nat) : Int) := by omega
    have e : (-(0 - ((k + 1 : Nat) : Int))).toNat = k + 1 := by omega
    simp only [h, if_false, e]

/-- On a plain decimal number (digits, then possibly a point and digits, and nothing
else) `strtof` converts the fraction the text denotes. -/
theorem strtof_plain (ip tl fp : Str) (hne : ip ≠ []) (hip : ∀ c ∈ ip, isDigitChar c = true)
    (htl : (tl = [] ∧ fp = []) ∨ tl = '.' :: fp) (hfp : ∀ c ∈ fp, isDigitChar c = true) :
    strtof (ip ++ tl) = toFloat false (decimalValue (ip ++ fp)) (10 ^ fp.length) := by
  obtain ⟨c, ip2, rfl⟩ : ∃ c ip2, ip = c :: ip2 := by
    cases ip with
    | nil => exact absurd rfl hne
    | cons c ip2 => exact ⟨c, ip2, rfl⟩
  have hc := hip c (List.mem_cons_self _ _)
  have hp : NumberPrefix [] [] ((c :: ip2) ++ tl) = true := by
    have h1 := digit_not_space c hc
    have h2 := digit_not_sign c hc
    simp [NumberPrefix, h1, h2.1, h2.2]
  have hread := numberPrefix_read [] [] ((c :: ip2) ++ tl) hp
  simp only [List.nil_append] at hread
  have hsign : decide (([] : Str) = ['-']) = false := by decide
  rw [hsign] at hread
  have hinf := digit_not_inf_nan c (ip2 ++ tl) hc
  have hhex := parseHexFloat_plain (c :: ip2) tl hip
    (by rcases htl with ⟨h, _⟩ | h
        · exact Or.inl h
        · exact Or.inr ⟨fp, h⟩)
  have htlhead : ∀ x ∈ tl.head?, isDigitChar x = false := by
    rcases htl with ⟨h, _⟩ | h
    · subst h; intro x hx; simp at hx
    · subst h
      intro x hx
      simp at hx
      subst hx
      decide
  have hdig := takeDigits_digits (c :: ip2) tl hip htlhead
  have hsig : takeSignificand digitVal ((c :: ip2) ++ tl)
      = (((c :: ip2) ++ fp).map fun c => c.toNat - '0'.toNat, fp.length, []) := by
    unfold takeSignificand
    rcases htl with ⟨h1, h2⟩ | h
    · subst h1
      subst h2
      have hd0 := hdig
      simp only [List.append_nil] at hd0
      simp only [List.append_nil, hd0]
      rfl
    · subst h
      have hf := takeDigits_digits fp [] hfp (by intro x hx; simp at hx)
      simp only [List.append_nil] at hf
      simp only [hdig, hf, List.map_append, List.length_map]
  have hnil : (((c :: ip2) ++ fp).map fun c => c.toNat - '0'.toNat) ≠ [] := by
    intro h
    have := congrArg List.length h
    simp at this
  have hpe : parseExp 'e' [] = 0 := rfl
  have hdec : parseDecFloat ((c :: ip2) ++ tl)
      = some (scaled (decimalValue ((c :: ip2) ++ fp)) 10 (0 - (fp.length : Int))) := by
    unfold parseDecFloat
    simp only [hsig, hnil, if_false, hpe, digitsValue_map]
  unfold strtof
  have hcons : (c :: ip2) ++ tl = c :: (ip2 ++ tl) := rfl
  rw [hread]
  simp only [hcons] at hinf hhex hdec ⊢
  simp only [hinf.1, hinf.2, hhex, hdec, Bool.false_eq_true, if_false]
  exact toFloat_scaled false _ _

/-! ### Rounding to `float` -/

theorem log2Aux_spec : ∀ (fuel n acc : Nat), 1 ≤ n → n ≤ fuel →
    ∃ L, log2Aux fuel n acc = acc + L ∧ 2 ^ L ≤ n ∧ n < 2 ^ (L + 1) := by
  intro fuel
  induction fuel with
  | zero => intro n acc h1 h2; omega
  | succ f ih =>
    intro n acc h1 h2
    rw [log2Aux]
    by_cases hn : n < 2
    · rw [if_pos hn]
      exact ⟨0, rfl, by simpa using h1, by simpa using hn⟩
    · rw [if_neg hn]
      obtain ⟨L, e, hl, hu⟩ := ih (n / 2) (acc + 1) (by omega) (by omega)
      refine ⟨L + 1, by rw [e]; omega, ?_, ?_⟩
      · rw [pow_succ]; omega
      · rw [pow_succ]; omega

theorem rne_le (a d : Nat) : roundNearestEven a d ≤ a / d + 1 := by
  unfold roundNearestEven
  split <;> omega

theorem rne_ge (a d : Nat) : a / d ≤ roundNearestEven a d := by
  unfold roundNearestEven
  split <;> omega

theorem rne_floor (a d : Nat) (h : 2 * (a % d) < d) : roundNearestEven a d = a / d := by
  unfold roundNearestEven
  rw [if_neg]
  intro h2
  omega

theorem rne_up (a d : Nat) (h : d ≤ 2 * (a % d)) (hodd : a / d % 2 = 1) :
    roundNearestEven a d = a / d + 1 := by
  unfold roundNearestEven
  rw [if_pos]
  omega

/-- For `x / den` of at least `2 ^ 24`: the position `L` of its leading digit, and
the quotient by the unit in the last place. -/
theorem leading_digit (x den : Nat) (h24 : ¬ x / den < 2 ^ 24) :
    ∃ L, log2Aux (x / den) (x / den) 0 = L ∧ 24 ≤ L ∧ 2 ^ L ≤ x / den ∧ x / den < 2 ^ (L + 1)
      ∧ x / (den * 2 ^ (L - 23)) < 2 ^ 24 ∧ 2 ^ 23 ≤ x / (den * 2 ^ (L - 23)) := by
  have h1 : 1 ≤ x / den := by
    have : (1 : Nat) ≤ 2 ^ 24 := Nat.one_le_two_pow
    omega
  obtain ⟨L, e, hl, hu⟩ := log2Aux_spec (x / den) (x / den) 0 h1 (le_refl _)
  have hL : 24 ≤ L := by
    by_contra hc
    have : 2 ^ (L + 1) ≤ 2 ^ 24 := Nat.pow_le_pow_right (by norm_num) (by omega)
    omega
  have hsplit : 2 ^ (L + 1) = 2 ^ 24 * 2 ^ (L - 23) := by
    rw [← pow_add]
    congr 1
    omega
  have hsplit2 : 2 ^ L = 2 ^ 23 * 2 ^ (L - 23) := by
    rw [← pow_add]
    congr 1
    omega
  have hpos : 0 < 2 ^ (L - 23) := by positivity
  refine ⟨L, by rw [e]; omega, hL, hl, hu, ?_, ?_⟩
  · rw [← Nat.div_div_eq_div_mul]
    rw [Nat.div_lt_iff_lt_mul hpos, ← hsplit]
    exact hu
  · rw [← Nat.div_div_eq_div_mul]
    rw [Nat.le_div_iff_mul_le hpos, ← hsplit2]
    exact hl

set_option exponentiation.threshold 512 in
/-- A number that is zero or at least `2 ^ (-126)`, and below `2 ^ 128 - 2 ^ 103`, is
converted to a `float` without a range error. -/
theorem toFloat_in_range (neg : Bool) (m den : Nat) (hden : 0 < den)
    (hlo : m = 0 ∨ 2 ^ 23 * den ≤ m * 2 ^ 149)
    (hhi : 2 * (m * 2 ^ 149) < (2 ^ 25 - 1) * 2 ^ 253 * den) :
    ∃ n, toFloat neg m den = .value (.finite neg n) := by
  rcases hlo with rfl | hlo
  · refine ⟨0, ?_⟩
    have hne : ¬ (0 = den) := by omega
    simp [toFloat, roundedUnits, roundNearestEven, hne]
  · unfold toFloat
    generalize hx : m * 2 ^ 149 = x at hlo hhi
    have hfl : 2 ^ 23 ≤ x / den := (Nat.le_div_iff_mul_le hden).2 hlo
    have hnot : ¬ (x / den < 2 ^ 23 ∧ x % den ≠ 0) := fun h => absurd h.1 (by omega)
    rw [if_neg hnot]
    have hbound : roundedUnits m den < 2 ^ 128 * 2 ^ 149 := by
      unfold roundedUnits
      rw [hx]
      by_cases h24 : x / den < 2 ^ 24
      · rw [if_pos h24]
        have := rne_le x den
        have e : (2 : Nat) ^ 128 * 2 ^ 149 = 2 ^ 24 * 2 ^ 253 := by norm_num
        have hp : (1 : Nat) ≤ 2 ^ 253 := Nat.one_le_two_pow
        rw [e]
        calc roundNearestEven x den ≤ x / den + 1 := this
          _ ≤ 2 ^ 24 := by omega
          _ < 2 ^ 24 * 2 ^ 253 := by
            have : (2 : Nat) ^ 24 * 1 < 2 ^ 24 * 2 ^ 253 :=
              Nat.mul_lt_mul_of_pos_left (by norm_num) (by positivity)
            omega
      · rw [if_neg h24]
        obtain ⟨L, e, hL, hl, hu, hq, _⟩ := leading_digit x den h24
        rw [e]
        have hx277 : x / den < 2 ^ 277 := by
          rw [Nat.div_lt_iff_lt_mul hden]
          have e2 : (2 : Nat) ^ 277 = 2 ^ 25 * 2 ^ 252 := by norm_num
          have e3 : ((2 : Nat) ^ 25 - 1) * 2 ^ 253 * den ≤ 2 * (2 ^ 25 * 2 ^ 252 * den) := by
            have : ((2 : Nat) ^ 25 - 1) * 2 ^ 253 ≤ 2 * (2 ^ 25 * 2 ^ 252) := by norm_num
            calc ((2 : Nat) ^ 25 - 1) * 2 ^ 253 * den ≤ 2 * (2 ^ 25 * 2 ^ 252) * den :=
                  Nat.mul_le_mul_right den this
              _ = 2 * (2 ^ 25 * 2 ^ 252 * den) := by ring
          rw [e2]
          omega
        have hL276 : L ≤ 276 := by
          by_contra hc
          have : 2 ^ 277 ≤ 2 ^ L := Nat.pow_le_pow_right (by norm_num) (by omega)
          omega
        have e277 : (2 : Nat) ^ 128 * 2 ^ 149 = 2 ^ 277 := by norm_num
        rw [e277]
        by_cases hlt : L ≤ 275
        · have h1 := rne_le x (den * 2 ^ (L - 23))
          have h2 : roundNearestEven x (den * 2 ^ (L - 23)) ≤ 2 ^ 24 := by omega
          calc roundNearestEven x (den * 2 ^ (L - 23)) * 2 ^ (L - 23)
              ≤ 2 ^ 24 * 2 ^ (L - 23) := Nat.mul_le_mul_right _ h2
            _ = 2 ^ (L + 1) := by rw [← pow_add]; congr 1; omega
            _ ≤ 2 ^ 276 := Nat.pow_le_pow_right (by norm_num) (by omega)
            _ < 2 ^ 277 := by norm_num
        · have hLeq : L = 276 := by omega
          subst hLeq
          have e253 : 276 - 23 = 253 := by norm_num
          rw [e253] at hq ⊢
          have hr : roundNearestEven x (den * 2 ^ 253) ≤ 2 ^ 24 - 1 := by
            by_cases hq2 : x / (den * 2 ^ 253) = 2 ^ 24 - 1
            · have hdm := Nat.div_add_mod x (den * 2 ^ 253)
              rw [hq2] at hdm
              have hfloor : 2 * (x % (den * 2 ^ 253)) < den * 2 ^ 253 := by
                have e4 : ((2 : Nat) ^ 25 - 1) * 2 ^ 253 * den
                    = (2 ^ 25 - 1) * (den * 2 ^ 253) := by ring
                rw [e4] at hhi
                generalize den * 2 ^ 253 = d at hdm hhi ⊢
                generalize x % d = r at hdm ⊢
                norm_num at hdm hhi ⊢
                omega
              rw [rne_floor x _ hfloor, hq2]
            · have h1 := rne_le x (den * 2 ^ 253)
              omega
          calc roundNearestEven x (den * 2 ^ 253) * 2 ^ 253
              ≤ (2 ^ 24 - 1) * 2 ^ 253 := Nat.mul_le_mul_right _ hr
            _ < 2 ^ 277 := by norm_num
    rw [if_neg (by omega)]
    exact ⟨_, rfl⟩

set_option exponentiation.threshold 512 in
/-- A number of at least `2 ^ 128 - 2 ^ 103` overflows. -/
theorem toFloat_overflow (neg : Bool) (m den : Nat) (hden : 0 < den)
    (h : (2 ^ 25 - 1) * 2 ^ 253 * den ≤ 2 * (m * 2 ^ 149)) :
    toFloat neg m den = .overflow := by
  unfold toFloat
  generalize hx : m * 2 ^ 149 = x at h
  have hfl : (2 ^ 25 - 1) * 2 ^ 252 ≤ x / den := by
    rw [Nat.le_div_iff_mul_le hden]
    have e : ((2 : Nat) ^ 25 - 1) * 2 ^ 253 * den = 2 * ((2 ^ 25 - 1) * 2 ^ 252 * den) := by
      have : ((2 : Nat) ^ 25 - 1) * 2 ^ 253 = 2 * ((2 ^ 25 - 1) * 2 ^ 252) := by norm_num
      rw [this]; ring
    omega
  have hbig : (2 : Nat) ^ 276 ≤ (2 ^ 25 - 1) * 2 ^ 252 := by norm_num
  have h23 : ¬ (x / den < 2 ^ 23 ∧ x % den ≠ 0) := by
    intro hc
    have : (2 : Nat) ^ 23 ≤ 2 ^ 276 := Nat.pow_le_pow_right (by norm_num) (by norm_num)
    omega
  rw [if_neg h23]
  have hbound : 2 ^ 128 * 2 ^ 149 ≤ roundedUnits m den := by
    unfold roundedUnits
    rw [hx]
    have h24 : ¬ x / den < 2 ^ 24 := by
      have : (2 : Nat) ^ 24 ≤ 2 ^ 276 := Nat.pow_le_pow_right (by norm_num) (by norm_num)
      omega
    rw [if_neg h24]
    obtain ⟨L, e, hL, hl, hu, hq, hq23⟩ := leading_digit x den h24
    rw [e]
    have e277 : (2 : Nat) ^ 128 * 2 ^ 149 = 2 ^ 277 := by norm_num
    rw [e277]
    have hL276 : 276 ≤ L := by
      by_contra hc
      have : 2 ^ (L + 1) ≤ 2 ^ 276 := Nat.pow_le_pow_right (by norm_num) (by omega)
      omega
    by_cases hgt : 277 ≤ L
    · have h1 := rne_ge x (den * 2 ^ (L - 23))
      calc 2 ^ 277 ≤ 2 ^ L := Nat.pow_le_pow_right (by norm_num) hgt
        _ = 2 ^ 23 * 2 ^ (L - 23) := by rw [← pow_add]; congr 1; omega
        _ ≤ roundNearestEven x (den * 2 ^ (L - 23)) * 2 ^ (L - 23) :=
            Nat.mul_le_mul_right _ (le_trans hq23 h1)
    · have hLeq : L = 276 := by omega
      subst hLeq
      have e253 : 276 - 23 = 253 := by norm_num
      rw [e253] at hq ⊢
      have hdpos : 0 < den * 2 ^ 253 := by positivity
      have hq2 : x / (den * 2 ^ 253) = 2 ^ 24 - 1 := by
        have hge : 2 ^ 24 - 1 ≤ x / (den * 2 ^ 253) := by
          rw [Nat.le_div_iff_mul_le hdpos]
          have e4 : ((2 : Nat) ^ 25 - 1) * 2 ^ 253 * den
              = (2 ^ 25 - 1) * (den * 2 ^ 253) := by ring
          rw [e4] at h
          generalize den * 2 ^ 253 = d at h ⊢
          norm_num at h ⊢
          omega
        omega
      have hdm := Nat.div_add_mod x (den * 2 ^ 253)
      rw [hq2] at hdm
      have hup : den * 2 ^ 253 ≤ 2 * (x % (den * 2 ^ 253)) := by
        have e4 : ((2 : Nat) ^ 25 - 1) * 2 ^ 253 * den
            = (2 ^ 25 - 1) * (den * 2 ^ 253) := by ring
        rw [e4] at h
        generalize den * 2 ^ 253 = d at hdm h ⊢
        generalize x % d = r at hdm ⊢
        norm_num at hdm h ⊢
        omega
      have hodd : x / (den * 2 ^ 253) % 2 = 1 := by rw [hq2]; norm_num
      rw [rne_up x _ hup hodd, hq2]
      norm_num
  rw [if_pos hbound]

/-- Every text splits into leading white space, an optional sign and a body in the
way `NumberPrefix` describes. -/
theorem numberPrefix_exists (v : Str) :
    ∃ ws sg body, v = ws ++ (sg ++ body) ∧ NumberPrefix ws sg body = true := by
  have hsplit := List.takeWhile_append_dropWhile isspace v
  have hws : (v.takeWhile isspace).all isspace = true := by
    rw [List.all_eq_true]
    intro x hx
    exact List.mem_takeWhile_imp hx
  have hhead := List.head?_dropWhile_not isspace v
  cases hb : v.dropWhile isspace with
  | nil =>
    refine ⟨v.takeWhile isspace, [], [], ?_, ?_⟩
    · rw [hb] at hsplit
      simpa using hsplit.symm
    · simp [NumberPrefix, hws]
  | cons c t =>
    rw [hb] at hsplit hhead
    have hc : isspace c = false := by simpa using hhead
    by_cases h1 : c = '+'
    · subst h1
      refine ⟨v.takeWhile isspace, ['+'], t, ?_, ?_⟩
      · simpa using hsplit.symm
      · cases t <;> simp [NumberPrefix, hws]
    · by_cases h2 : c = '-'
      · subst h2
        refine ⟨v.takeWhile isspace, ['-'], t, ?_, ?_⟩
        · simpa using hsplit.symm
        · cases t <;> simp [NumberPrefix, hws]
      · refine ⟨v.takeWhile isspace, [], c :: t, ?_, ?_⟩
        · simpa using hsplit.symm
        · simp [NumberPrefix, hws, hc, h1, h2]

/-- Every text splits into leading white space, an optional sign, a run of digits and
a rest that does not start with a digit. -/
theorem number_text_shape (v : Str) :
    ∃ ws sg ds rest, v = ws ++ (sg ++ (ds ++ rest)) ∧ NumberPrefix ws sg (ds ++ rest) = true
      ∧ (∀ c ∈ ds, isDigitChar c = true) ∧ (∀ c ∈ rest.head?, isDigitChar c = false) := by
  obtain ⟨ws, sg, body, hv, hp⟩ := numberPrefix_exists v
  have hsplit := List.takeWhile_append_dropWhile isDigitChar body
  refine ⟨ws, sg, body.takeWhile isDigitChar, body.dropWhile isDigitChar, ?_, ?_, ?_, ?_⟩
  · rw [hsplit]; exact hv
  · rw [hsplit]; exact hp
  · intro c hc
    exact List.mem_takeWhile_imp hc
  · intro c hc
    have hhead := List.head?_dropWhile_not isDigitChar body
    rw [Option.mem_def] at hc
    rw [hc] at hhead
    simpa using hhead

/-! ## When the conversions fail -/

theorem stof_invalid_iff (underflow : Bool → Nat → Nat → Option Nat) (s : Str) :
    stof underflow s = .throws .invalid_argument ↔ strtof s = .no_conversion := by
  unfold stof
  cases h : strtof s with
  | value x => simp
  | no_conversion => simp
  | overflow => simp
  | underflow neg num den =>
    cases h2 : underflow neg num den <;> simp [h2]

theorem on_write_invalid_iff (underflow : Bool → Nat → Nat → Option Nat) (request : Request) :
    on_write underflow request false = (.Thrown .invalid_argument, [])
      ↔ stof underflow request.http_version = .throws .invalid_argument := by
  unfold on_write
  simp only [Bool.false_eq_true, if_false]
  cases h : stof underflow request.http_version with
  | value x =>
    simp only
    unfold process_request_and_respond
    split <;> simp
  | throws e => cases e <;> simp

/-- C9, as the code has it.  The two conversions fail on part of the texts that the
header and request-line patterns accept, and the exception then leaves the completion
handler.
With a Content-Length header whose value is white space, an optional sign, the digits
`ds` and a rest not starting with a digit: the handler of the header read throws
`std::invalid_argument` when there is no digit, `std::out_of_range` when the digits
denote `2 ^ 64` or more, and otherwise issues the read of the body.
After a write without error: the handler throws `std::invalid_argument` exactly when
the version, after white space and an optional sign, does not start with a number;
for a version that is a plain decimal number (digits, possibly a point and digits) it
throws `std::out_of_range` when the number is `2 ^ 128 - 2 ^ 103` or more, and throws
nothing when the number is zero or lies between `2 ^ (-126)` and that bound.
After a write error no conversion is made. -/
theorem conversion_failures (underflow : Bool → Nat → Nat → Option Nat)
    (rx : Str → Str → Option (List Str)) (all_resources : List Route) :
    (∀ (buffer : Str) (k : Nat) (request : Request) (stream : IStream) (ws sg ds rest : Str),
        parse_request { buf := buffer, good := true } = .returned request stream →
        request.header.find "Content-Length".toList = some (ws ++ (sg ++ (ds ++ rest))) →
        NumberPrefix ws sg (ds ++ rest) = true →
        (∀ c ∈ ds, isDigitChar c = true) →
        (∀ c ∈ rest.head?, isDigitChar c = false) →
        step underflow rx all_resources .AwaitingHeaders (.read_until false buffer k)
          = if ds = [] then (.Thrown .invalid_argument, [])
            else if 2 ^ 64 ≤ decimalValue ds then (.Thrown .out_of_range, [])
            else
              (.AwaitingBody request stream,
                [.async_read
                  (sub64
                    (if sg = ['-'] then (2 ^ 64 - decimalValue ds) % 2 ^ 64
                     else decimalValue ds)
                    (sub64 buffer.length k))]))
    ∧ (∀ (request : Request) (ws sg rest : Str),
        request.http_version = ws ++ (sg ++ rest) →
        NumberPrefix ws sg rest = true →
        (step underflow rx all_resources (.Responding request) (.write false)
            = (.Thrown .invalid_argument, [])
          ↔ startsNumber rest = false))
    ∧ (∀ (request : Request) (ip tl fp : Str),
        request.http_version = ip ++ tl →
        ip ≠ [] →
        (∀ c ∈ ip, isDigitChar c = true) →
        ((tl = [] ∧ fp = []) ∨ tl = '.' :: fp) →
        (∀ c ∈ fp, isDigitChar c = true) →
        ((decimalValue (ip ++ fp) = 0
              ∨ 2 ^ 23 * 10 ^ fp.length ≤ decimalValue (ip ++ fp) * 2 ^ 149) →
            2 * (decimalValue (ip ++ fp) * 2 ^ 149) < (2 ^ 25 - 1) * 2 ^ 253 * 10 ^ fp.length →
            (step underflow rx all_resources (.Responding request) (.write false)).1
                = .AwaitingHeaders
              ∨ (step underflow rx all_resources (.Responding request) (.write false)).1
                = .Closed)
        ∧ ((2 ^ 25 - 1) * 2 ^ 253 * 10 ^ fp.length ≤ 2 * (decimalValue (ip ++ fp) * 2 ^ 149) →
            step underflow rx all_resources (.Responding request) (.write false)
              = (.Thrown .out_of_range, [])))
    ∧ (∀ request : Request,
        step underflow rx all_resources (.Responding request) (.write true) = (.Closed, [])) := by
  refine ⟨?_, ?_, ?_, fun _ => rfl⟩
  · intro buffer k request stream ws sg ds rest hp hv hpre hds hrest
    simp only [step, on_read_until, hp, hv, Bool.false_eq_true, if_false,
      stoull_spec ws sg ds rest hpre hds hrest]
    by_cases h1 : ds = []
    · simp only [h1, if_true]
    · simp only [h1, if_false]
      by_cases h2 : 2 ^ 64 ≤ decimalValue ds
      · simp only [h2, if_true]
      · simp only [h2, if_false]
  · intro request ws sg rest hv hpre
    show on_write underflow request false = _ ↔ _
    rw [on_write_invalid_iff, stof_invalid_iff, hv]
    exact strtof_no_conversion_iff ws sg rest hpre
  · intro request ip tl fp hv hne hip htl hfp
    have hs := strtof_plain ip tl fp hne hip htl hfp
    have hpos : 0 < 10 ^ fp.length := by positivity
    constructor
    · intro hlo hhi
      obtain ⟨n, hn⟩ := toFloat_in_range false _ _ hpos hlo hhi
      show (on_write underflow request false).1 = _ ∨ (on_write underflow request false).1 = _
      unfold on_write stof
      simp only [Bool.false_eq_true, if_false, hv, hs, hn]
      unfold process_request_and_respond
      split
      · left; rfl
      · right; rfl
    · intro hov
      have ho := toFloat_overflow false _ _ hpos hov
      show on_write underflow request false = _
      unfold on_write stof
      simp only [Bool.false_eq_true, if_false, hv, hs, ho]

/-- C9, instance: the request `POST / HTTP/1.1` with `Content-Length: 5` makes the
handler of the header read issue a read of 5 bytes, and the completion of its write
throws nothing. -/
theorem conversion_failures_witness :
    step underflowReported literalStarRx [] .AwaitingHeaders
        (.read_until false "POST / HTTP/1.1\r\nContent-Length: 5\r\n\r\n".toList 38)
      = (.AwaitingBody postLength5 { buf := [], good := true }, [.async_read 5])
    ∧ ((step underflowReported literalStarRx [] (.Responding postLength5) (.write false)).1
          = .AwaitingHeaders
        ∨ (step underflowReported literalStarRx [] (.Responding postLength5) (.write false)).1
          = .Closed) :=
  ⟨(conversion_failures underflowReported literalStarRx []).1
      "POST / HTTP/1.1\r\nContent-Length: 5\r\n\r\n".toList 38 postLength5
      { buf := [], good := true } [] [] ['5'] [] (by decide) rfl (by decide) (by decide)
      (by decide),
   ((conversion_failures underflowReported literalStarRx []).2.2.1 postLength5
      ['1'] ['.', '1'] ['1'] rfl (by decide) (by decide) (Or.inr rfl) (by decide)).1
      (by decide) (by decide)⟩

end ShiyanlouWeb
